import Mathlib

/-!
Shallow embedding of the `devork/twkb` TWKB decoder (files `decoder.go` and
`types.go`) and a verification of the specification's claims about it.

Modelling conventions:
* The input stream is a `List Nat` of bytes (every read failure of the
  underlying `io.Reader` is the stream running dry, after which further reads
  keep failing, as with Go's `bytes.Reader`).
* Go `uint64` values are `Nat` with explicit `% 2 ^ 64` where overflow can
  occur; `int64` values are `Int` with two's-complement wraparound made
  explicit (`wrap64`, `toInt64`).
* `float64` coordinate arithmetic is idealised as exact rational arithmetic
  (`ℚ`); the constants `math.MaxInt64` / `math.MinInt64`, converted to
  `float64` by Go's constant rounding, become `2 ^ 63` and `-(2 ^ 63)`.
* The pointer-carried decoder state (`decoder` struct) is threaded explicitly;
  functions return the updated state even on a failed read, since
  `decodePolygon` keeps using the decoder after an unchecked `readCoords`
  error.
* The recursion `Decode -> decodeCollection -> Decode` is bounded by explicit
  fuel (`decodeFuel`); `Decode` supplies `length + 1` fuel, which can never be
  exhausted because every nesting level first consumes two header bytes.
-/

namespace Twkb

/-- Reinterpret a `uint64` bit pattern as Go `int64` (two's complement). -/
def toInt64 (n : Nat) : Int :=
  if n < 2 ^ 63 then (n : Int) else (n : Int) - 2 ^ 64

/-- Go `int64` addition/overflow wraparound: reduce an integer into
`[-2 ^ 63, 2 ^ 63)` modulo `2 ^ 64`. -/
def wrap64 (z : Int) : Int :=
  (z + 2 ^ 63) % 2 ^ 64 - 2 ^ 63

/-- `unzigzag` from `decoder.go`:
`if nVal & 1 == 0 { return int64(nVal >> 1) }; return int64(-(nVal >> 1) - 1)`.
The negation and subtraction in the odd branch are Go `uint64` operations
(wrapping), followed by the `int64` reinterpretation. -/
def unzigzag (nVal0 : Nat) : Int :=
  let nVal := nVal0 % 2 ^ 64
  if nVal &&& 1 = 0 then toInt64 (nVal >>> 1)
  else toInt64 ((2 ^ 65 - (nVal >>> 1) - 1) % 2 ^ 64)

/-- Loop of `readVarInt64` from `decoder.go`, as recursion on the byte list:
`val` and `shift` are the accumulator and shift count; Go `uint64` shifts
truncate modulo `2 ^ 64` (a shift count of 64 or more leaves nothing). -/
def readVarInt64Aux : List Nat → Nat → Nat → Option (Nat × List Nat)
  | [], _, _ => none
  | b :: bs, val, shift =>
    if b &&& 0x80 = 0 then some (val ||| ((b <<< shift) % 2 ^ 64), bs)
    else readVarInt64Aux bs (val ||| (((b &&& 0x7f) <<< shift) % 2 ^ 64)) (shift + 7)

/-- `readVarInt64` from `decoder.go` (entered with `val = 0`, `shift = 0`). -/
def readVarInt64 (bs : List Nat) : Option (Nat × List Nat) :=
  readVarInt64Aux bs 0 0

/-- `readVarSInt64` from `decoder.go`: unsigned varint, then `unzigzag`. -/
def readVarSInt64 (bs : List Nat) : Option (Int × List Nat) :=
  (readVarInt64 bs).map fun p => (unzigzag p.1, p.2)

/-- `int64(math.Pow10(p))` for the exponents this decoder can produce
(`0 ≤ p ≤ 7`, where `Pow10` is exact and fits in `int64`); `Pow10` of a
negative exponent is a fraction strictly below 1, which converts to 0. -/
def pow10i64 (p : Int) : Int :=
  if 0 ≤ p then 10 ^ p.toNat else 0

/-- `Hdr` from `types.go`: geometry kind (`POINT = 1` … `GEOMETRYCOLLECTION = 7`),
dimensionality code (`XY = 0`, `XYZ = 1`, `XYM = 2`, `XYZM = 3`) and optional
bounding box (`nil` slice becomes `none`). -/
structure Hdr where
  gtype : Nat
  dim : Nat
  bbox : Option (List ℚ)
deriving Repr, DecidableEq

/-- `Point` from `types.go`; the embedded `*Hdr` may be `nil` (`none`). -/
structure Point where
  hdr : Option Hdr
  coord : List ℚ
deriving Repr, DecidableEq

/-- `LineString` from `types.go`. -/
structure LineString where
  hdr : Option Hdr
  coords : List (List ℚ)
deriving Repr, DecidableEq

/-- `Polygon` from `types.go`; each ring is a list of coordinates. -/
structure Polygon where
  hdr : Option Hdr
  rings : List (List (List ℚ))
deriving Repr, DecidableEq

/-- `MultiPoint` from `types.go` (`nil` id slice becomes `[]`). -/
structure MultiPoint where
  hdr : Option Hdr
  ids : List Int
  points : List Point
deriving Repr, DecidableEq

/-- `MultiLineString` from `types.go`. -/
structure MultiLineString where
  hdr : Option Hdr
  ids : List Int
  lineStrings : List LineString
deriving Repr, DecidableEq

/-- `MultiPolygon` from `types.go`. -/
structure MultiPolygon where
  hdr : Option Hdr
  ids : List Int
  polygons : List Polygon
deriving Repr, DecidableEq

/-- The `Geometry` interface value produced by `Decode`.  `collection` is
`GeometryCollection` from `types.go`; `bareHdr` is the (unreachable)
`return &hdr, nil` fallthrough at the end of `Decode`. -/
inductive Geometry where
  | point (p : Point)
  | lineString (l : LineString)
  | polygon (p : Polygon)
  | multiPoint (m : MultiPoint)
  | multiLineString (m : MultiLineString)
  | multiPolygon (m : MultiPolygon)
  | collection (hdr : Option Hdr) (ids : List Int) (geoms : List Geometry)
  | bareHdr (h : Hdr)
deriving Repr

/-- Decode errors: `ErrUnknownGeom`, stream read failure (`io` errors, here
always end-of-input), and the artificial fuel-exhaustion marker of the
embedding (unreachable under `Decode`'s fuel budget). -/
inductive Err where
  | unknownGeom
  | eof
  | fuel
deriving Repr, DecidableEq

/-- The `decoder` struct from `decoder.go` (minus the reader, which is the
byte list threaded separately). -/
structure DecSt where
  refpoint : List Int
  factors : List Int
  ndims : Nat
  bbox : Bool
  size : Bool
  idlist : Bool
  empty : Bool
  length : Nat
deriving Repr, DecidableEq

/-- `bbox[j] = coord[j]` when `coord[j] < bbox[j]` (running minimum). -/
def updMin (bb : List ℚ) (j : Nat) (q : ℚ) : List ℚ :=
  if q < bb.getD j 0 then bb.set j q else bb

/-- `bbox[k] = coord[j]` when `coord[j] > bbox[k]` (running maximum). -/
def updMax (bb : List ℚ) (k : Nat) (q : ℚ) : List ℚ :=
  if bb.getD k 0 < q then bb.set k q else bb

/-- The on-the-fly bounding box seeded by `readCoords`: `math.MaxInt64` /
`math.MinInt64` converted to `float64` (exactly `2 ^ 63` and `-(2 ^ 63)`),
minimums first, then maximums. -/
def initBBox (ndims : Nat) : List ℚ :=
  List.replicate ndims ((2 : ℚ) ^ 63) ++ List.replicate ndims (-(2 : ℚ) ^ 63)

/-- Inner dimension loop of `readCoords` (`for j := 0; j < d.ndims; j++`),
with `k` the number of dimensions still to read.  Each step reads a signed
varint delta, accumulates it into `refpoint[j]` (with `int64` wraparound),
divides by `factors[j]` and updates the incidental bbox when present.  A read
failure returns the partially updated state and the exhausted stream. -/
def readDims : DecSt → Option (List ℚ) → Nat → Nat → List Nat →
    Option (List ℚ × Option (List ℚ)) × DecSt × List Nat
  | s, bb, _, 0, bs => (some ([], bb), s, bs)
  | s, bb, j, k+1, bs =>
    match readVarSInt64 bs with
    | none => (none, s, [])
    | some (val, bs') =>
      let r := wrap64 (s.refpoint.getD j 0 + val)
      let s' := { s with refpoint := s.refpoint.set j r }
      let q : ℚ := (r : ℚ) / ((s'.factors.getD j 0 : Int) : ℚ)
      let bb' := bb.map fun b => updMax (updMin b j q) (j + s'.ndims) q
      match readDims s' bb' (j+1) k bs' with
      | (some (coord, bbOut), s'', bs'') => (some (q :: coord, bbOut), s'', bs'')
      | (none, s'', bs'') => (none, s'', bs'')

/-- Outer coordinate loop of `readCoords` (`for i := 0; i < size; i++`). -/
def readCoordsLoop : DecSt → Option (List ℚ) → Nat → List Nat →
    Option (List (List ℚ) × Option (List ℚ)) × DecSt × List Nat
  | s, bb, 0, bs => (some ([], bb), s, bs)
  | s, bb, n+1, bs =>
    match readDims s bb 0 s.ndims bs with
    | (none, s', bs') => (none, s', bs')
    | (some (coord, bb'), s', bs') =>
      match readCoordsLoop s' bb' n bs' with
      | (some (coords, bbOut), s'', bs'') => (some (coord :: coords, bbOut), s'', bs'')
      | (none, s'', bs'') => (none, s'', bs'')

/-- `readCoords` from `decoder.go`: when the header's bbox flag is clear, an
incidental bounding box is accumulated, seeded with `initBBox`. -/
def readCoords (s : DecSt) (n : Nat) (bs : List Nat) :
    Option (List (List ℚ) × Option (List ℚ)) × DecSt × List Nat :=
  let bb := if s.bbox then none else some (initBBox s.ndims)
  readCoordsLoop s bb n bs

/-- `decodePoint` from `decoder.go`: one coordinate; with a non-nil header the
incidental bbox, when produced, is written into it. -/
def decodePoint (s : DecSt) (h : Option Hdr) (bs : List Nat) :
    Except Err (Point × DecSt × List Nat) :=
  match readCoords s 1 bs with
  | (none, _, _) => .error .eof
  | (some (coords, bb), s', rest) =>
    match h with
    | some hh =>
      let hh' := match bb with
        | some b => { hh with bbox := some b }
        | none => hh
      .ok ({ hdr := some hh', coord := coords.headD [] }, s', rest)
    | none => .ok ({ hdr := none, coord := coords.headD [] }, s', rest)

/-- `decodeLineString` from `decoder.go`: varint count, then that many
coordinates. -/
def decodeLineString (s : DecSt) (h : Option Hdr) (bs : List Nat) :
    Except Err (LineString × DecSt × List Nat) :=
  match readVarInt64 bs with
  | none => .error .eof
  | some (n, bs') =>
    match readCoords s n bs' with
    | (none, _, _) => .error .eof
    | (some (coords, bb), s', rest) =>
      match h with
      | some hh =>
        let hh' := match bb with
          | some b => { hh with bbox := some b }
          | none => hh
        .ok ({ hdr := some hh', coords := coords }, s', rest)
      | none => .ok ({ hdr := none, coords := coords }, s', rest)

/-- Ring loop of `decodePolygon`.  Faithful to the source: the error returned
by `readCoords` is assigned but never checked, and the incidental bbox is
discarded (`rings[ring], _, err = readCoords(d, int(ringSize))`).  On a failed
`readCoords` the ring is the `nil` slice and the loop simply continues with
the (exhausted) stream; only the per-ring `readVarInt64` is error-checked. -/
def polyRings : DecSt → Nat → List Nat →
    Except Err (List (List (List ℚ)) × DecSt × List Nat)
  | s, 0, bs => .ok ([], s, bs)
  | s, n+1, bs =>
    match readVarInt64 bs with
    | none => .error .eof
    | some (ringSize, bs') =>
      match readCoords s ringSize bs' with
      | (res, s', bs'') =>
        let ring := match res with
          | some (cs, _) => cs
          | none => []
        match polyRings s' n bs'' with
        | .error e => .error e
        | .ok (rs, s'', rest) => .ok (ring :: rs, s'', rest)

/-- `decodePolygon` from `decoder.go`: varint ring count, then the ring loop;
the header is attached unmodified (no bbox is ever written to it). -/
def decodePolygon (s : DecSt) (h : Option Hdr) (bs : List Nat) :
    Except Err (Polygon × DecSt × List Nat) :=
  match readVarInt64 bs with
  | none => .error .eof
  | some (n, bs') =>
    match polyRings s n bs' with
    | .error e => .error e
    | .ok (rings, s', rest) =>
      match h with
      | some hh => .ok ({ hdr := some hh, rings := rings }, s', rest)
      | none => .ok ({ hdr := none, rings := rings }, s', rest)

/-- `readIDList` from `decoder.go`. -/
def readIDList : Nat → List Nat → Option (List Int × List Nat)
  | 0, bs => some ([], bs)
  | n+1, bs =>
    match readVarSInt64 bs with
    | none => none
    | some (id, bs') =>
      match readIDList n bs' with
      | none => none
      | some (ids, rest) => some (id :: ids, rest)

/-- `readMHdr` from `decoder.go`: member count, then an id list when the
idlist flag is set (otherwise the `nil` list). -/
def readMHdr (s : DecSt) (bs : List Nat) :
    Except Err ((Nat × List Int) × List Nat) :=
  match readVarInt64 bs with
  | none => .error .eof
  | some (n, bs') =>
    if s.idlist then
      match readIDList n bs' with
      | none => .error .eof
      | some (ids, rest) => .ok ((n, ids), rest)
    else .ok ((n, []), bs')

/-- Member loop of `decodeMultiPoint`: each member is decoded by
`decodePoint` with a `nil` header and the parent's threaded state. -/
def pointsLoop : DecSt → Nat → List Nat →
    Except Err (List Point × DecSt × List Nat)
  | s, 0, bs => .ok ([], s, bs)
  | s, m+1, bs =>
    match decodePoint s none bs with
    | .error e => .error e
    | .ok (p, s', bs') =>
      match pointsLoop s' m bs' with
      | .error e => .error e
      | .ok (ps, s'', rest) => .ok (p :: ps, s'', rest)

/-- `decodeMultiPoint` from `decoder.go`. -/
def decodeMultiPoint (s : DecSt) (h : Option Hdr) (bs : List Nat) :
    Except Err (MultiPoint × DecSt × List Nat) :=
  match readMHdr s bs with
  | .error e => .error e
  | .ok ((m, ids), bs') =>
    match pointsLoop s m bs' with
    | .error e => .error e
    | .ok (ps, s', rest) => .ok ({ hdr := h, ids := ids, points := ps }, s', rest)

/-- Member loop of `decodeMultiLineString`. -/
def lineStringsLoop : DecSt → Nat → List Nat →
    Except Err (List LineString × DecSt × List Nat)
  | s, 0, bs => .ok ([], s, bs)
  | s, m+1, bs =>
    match decodeLineString s none bs with
    | .error e => .error e
    | .ok (l, s', bs') =>
      match lineStringsLoop s' m bs' with
      | .error e => .error e
      | .ok (ls, s'', rest) => .ok (l :: ls, s'', rest)

/-- `decodeMultiLineString` from `decoder.go`. -/
def decodeMultiLineString (s : DecSt) (h : Option Hdr) (bs : List Nat) :
    Except Err (MultiLineString × DecSt × List Nat) :=
  match readMHdr s bs with
  | .error e => .error e
  | .ok ((m, ids), bs') =>
    match lineStringsLoop s m bs' with
    | .error e => .error e
    | .ok (ls, s', rest) => .ok ({ hdr := h, ids := ids, lineStrings := ls }, s', rest)

/-- Member loop of `decodeMultiPolygon`. -/
def polygonsLoop : DecSt → Nat → List Nat →
    Except Err (List Polygon × DecSt × List Nat)
  | s, 0, bs => .ok ([], s, bs)
  | s, m+1, bs =>
    match decodePolygon s none bs with
    | .error e => .error e
    | .ok (p, s', bs') =>
      match polygonsLoop s' m bs' with
      | .error e => .error e
      | .ok (ps, s'', rest) => .ok (p :: ps, s'', rest)

/-- `decodeMultiPolygon` from `decoder.go`. -/
def decodeMultiPolygon (s : DecSt) (h : Option Hdr) (bs : List Nat) :
    Except Err (MultiPolygon × DecSt × List Nat) :=
  match readMHdr s bs with
  | .error e => .error e
  | .ok ((m, ids), bs') =>
    match polygonsLoop s m bs' with
    | .error e => .error e
    | .ok (ps, s', rest) => .ok ({ hdr := h, ids := ids, polygons := ps }, s', rest)

/-- `(extended & 0x1C) >> 2`: the Z precision bits. -/
def zPrec (e : Nat) : Nat := (e &&& 0x1C) >>> 2

/-- `(extended & 0xE0) >> 5`: the M precision bits. -/
def mPrec (e : Nat) : Nat := (e &&& 0xE0) >>> 5

/-- The switch on the extended-dimensions byte in `Decode` (tested in order
`XYZM`, `XYZ`, `XYM`; no default, so other values leave `XY` untouched). -/
def applyExtended (e : Nat) (s : DecSt) (h : Hdr) : DecSt × Hdr :=
  if e &&& 3 = 3 then
    ({ s with
        ndims := 4,
        factors := (s.factors.set 2 (pow10i64 (zPrec e))).set 3 (pow10i64 (mPrec e)) },
      { h with dim := 3 })
  else if e &&& 1 = 1 then
    ({ s with ndims := 3, factors := s.factors.set 2 (pow10i64 (zPrec e)) },
      { h with dim := 1 })
  else if e &&& 2 = 2 then
    ({ s with ndims := 3, factors := s.factors.set 2 (pow10i64 (mPrec e)) },
      { h with dim := 2 })
  else (s, h)

/-- The header bbox loop in `Decode`: per dimension a signed varint minimum
and a signed varint delta-to-maximum; stores `min` and `min + max` (an `int64`
sum, hence the wraparound) as floats. -/
def readBBoxLoop : Nat → List Nat → Option ((List ℚ × List ℚ) × List Nat)
  | 0, bs => some (([], []), bs)
  | k+1, bs =>
    match readVarSInt64 bs with
    | none => none
    | some (mn, bs') =>
      match readVarSInt64 bs' with
      | none => none
      | some (mx, bs'') =>
        match readBBoxLoop k bs'' with
        | none => none
        | some ((mins, maxs), rest) =>
          some ((((mn : ℚ) :: mins, ((wrap64 (mn + mx) : Int) : ℚ) :: maxs)), rest)

/-- The per-decode initial decoder state, from `Decode` (`decoder.go` lines
95–122): X and Y scale factors from the precision nibble, flag booleans from
the metadata byte, dimensionality XY.  Go computes
`precision := unzigzag(uint64(flag&0xF0)) >> 4` — an arithmetic (`int64`)
shift, i.e. flooring division by 16 — and `int64(math.Pow10(int(precision)))`
for the factor. -/
def initSt (flag mflag : Nat) : DecSt :=
  { refpoint := [0, 0, 0, 0],
    factors := [pow10i64 (Int.fdiv (unzigzag (flag &&& 0xF0)) 16),
      pow10i64 (Int.fdiv (unzigzag (flag &&& 0xF0)) 16), 0, 0],
    ndims := 2,
    bbox := decide (mflag &&& 1 = 1),
    size := decide (mflag &&& 2 = 2),
    idlist := decide (mflag &&& 4 = 4),
    empty := decide (mflag &&& 16 = 16),
    length := 0 }

/-- The header value as first populated by `Decode`: geometry kind from the
low nibble, dimensionality XY, no bbox. -/
def initHdr (flag : Nat) : Hdr :=
  { gtype := flag &&& 0x0F, dim := 0, bbox := none }

/-- The optional extended-dimensions byte step of `Decode`. -/
def parseExtended (mflag : Nat) (s0 : DecSt) (h0 : Hdr) (bs : List Nat) :
    Except Err (DecSt × Hdr × List Nat) :=
  if mflag &&& 8 = 8 then
    match bs with
    | [] => .error .eof
    | e :: bs1 =>
      match applyExtended e s0 h0 with
      | (s1, h1) => .ok (s1, h1, bs1)
  else .ok (s0, h0, bs)

/-- The optional declared-size step of `Decode` (value stored, never used). -/
def parseSize (s1 : DecSt) (bs : List Nat) : Except Err (DecSt × List Nat) :=
  if s1.size then
    match readVarInt64 bs with
    | none => .error .eof
    | some (len, bs1) => .ok ({ s1 with length := len }, bs1)
  else .ok (s1, bs)

/-- The optional header-bbox step of `Decode`. -/
def parseBBox (s2 : DecSt) (h1 : Hdr) (bs : List Nat) :
    Except Err (DecSt × Hdr × List Nat) :=
  if s2.bbox then
    match readBBoxLoop s2.ndims bs with
    | none => .error .eof
    | some ((mins, maxs), bs1) => .ok (s2, { h1 with bbox := some (mins ++ maxs) }, bs1)
  else .ok (s2, h1, bs)

/-- Header part of `Decode` (`decoder.go` lines 85–188): type-and-precision
byte (with the unknown-kind check), metadata flags byte, then the extended
dimensions, declared size and header bbox steps. -/
def parseHeader (bs : List Nat) : Except Err (DecSt × Hdr × List Nat) :=
  match bs with
  | [] => .error .eof
  | flag :: bs1 =>
    if flag &&& 0x0F < 1 ∨ 7 < flag &&& 0x0F then .error .unknownGeom
    else
      match bs1 with
      | [] => .error .eof
      | mflag :: bs2 =>
        match parseExtended mflag (initSt flag mflag) (initHdr flag) bs2 with
        | .error er => .error er
        | .ok (s1, h1, bs3) =>
          match parseSize s1 bs3 with
          | .error er => .error er
          | .ok (s2, bs4) => parseBBox s2 h1 bs4

/-- Member loop of `decodeCollection`: each member is a fresh top-level
decode on the remaining stream (`Decode(d.r)` in the source), abstracted over
the decode function to close the recursion through the fuel parameter. -/
def decodeMembers (dec : List Nat → Except Err (Geometry × List Nat)) :
    Nat → List Nat → Except Err (List Geometry × List Nat)
  | 0, bs => .ok ([], bs)
  | m+1, bs =>
    match dec bs with
    | .error e => .error e
    | .ok (g, bs') =>
      match decodeMembers dec m bs' with
      | .error e => .error e
      | .ok (gs, rest) => .ok (g :: gs, rest)

/-- `decodeCollection` from `decoder.go`: multi-header, then `m` recursive
top-level decodes; the parent decoder's state is untouched. -/
def decodeCollection (dec : List Nat → Except Err (Geometry × List Nat))
    (s : DecSt) (h : Option Hdr) (bs : List Nat) :
    Except Err (Geometry × DecSt × List Nat) :=
  match readMHdr s bs with
  | .error e => .error e
  | .ok ((m, ids), bs') =>
    match decodeMembers dec m bs' with
    | .error e => .error e
    | .ok (gs, rest) => .ok (.collection h ids gs, s, rest)

/-- One step of `Decode`: header, then the dispatch switch on the geometry
kind (`decoder.go` lines 190–207), with `dec` the recursive decode used for
collection members. -/
def decodeStep (dec : List Nat → Except Err (Geometry × List Nat))
    (bs : List Nat) : Except Err (Geometry × List Nat) :=
  match parseHeader bs with
  | .error e => .error e
  | .ok (s, h, bs') =>
    if h.gtype = 1 then
      (decodePoint s (some h) bs').map fun x => (.point x.1, x.2.2)
    else if h.gtype = 2 then
      (decodeLineString s (some h) bs').map fun x => (.lineString x.1, x.2.2)
    else if h.gtype = 3 then
      (decodePolygon s (some h) bs').map fun x => (.polygon x.1, x.2.2)
    else if h.gtype = 4 then
      (decodeMultiPoint s (some h) bs').map fun x => (.multiPoint x.1, x.2.2)
    else if h.gtype = 5 then
      (decodeMultiLineString s (some h) bs').map fun x => (.multiLineString x.1, x.2.2)
    else if h.gtype = 6 then
      (decodeMultiPolygon s (some h) bs').map fun x => (.multiPolygon x.1, x.2.2)
    else if h.gtype = 7 then
      (decodeCollection dec s (some h) bs').map fun x => (x.1, x.2.2)
    else
      .ok (.bareHdr h, bs')

/-- Fuel-indexed decoder; structural recursion on the fuel, so that the
kernel can evaluate it on concrete inputs. -/
def decodeFuel : Nat → List Nat → Except Err (Geometry × List Nat)
  | 0 => fun _ => .error .fuel
  | fuel+1 => decodeStep (decodeFuel fuel)

/-- `Decode` from `decoder.go`.  `length + 1` fuel cannot run out: each
nesting level of collection recursion consumes at least the two leading
header bytes before recursing. -/
def Decode (bs : List Nat) : Except Err (Geometry × List Nat) :=
  decodeFuel (bs.length + 1) bs

end Twkb

namespace Twkb

/-!
## Helper lemmas
-/

theorem toInt64_of_lt {n : Nat} (h : n < 2 ^ 63) : toInt64 n = (n : Int) := by
  rw [toInt64, if_pos h]

theorem toInt64_of_ge {n : Nat} (h : 2 ^ 63 ≤ n) : toInt64 n = (n : Int) - 2 ^ 64 := by
  rw [toInt64, if_neg (by omega)]

/-- Closed form of `unzigzag` on the `uint64` range. -/
theorem unzigzag_eval {u : Nat} (hu : u < 2 ^ 64) :
    unzigzag u = if u % 2 = 0 then ((u / 2 : Nat) : Int) else -((u / 2 : Nat) : Int) - 1 := by
  have hm : u % 2 ^ 64 = u := Nat.mod_eq_of_lt hu
  have hsh : u >>> 1 = u / 2 := by
    simpa using Nat.shiftRight_eq_div_pow u 1
  have hhalf : u / 2 < 2 ^ 63 := by omega
  rw [unzigzag]
  simp only [hm, hsh, Nat.and_one_is_mod]
  by_cases h2 : u % 2 = 0
  · rw [if_pos h2, if_pos h2, toInt64_of_lt hhalf]
  · rw [if_neg h2, if_neg h2]
    have hmod : (2 ^ 65 - u / 2 - 1) % 2 ^ 64 = 2 ^ 64 - u / 2 - 1 := by omega
    rw [hmod, toInt64_of_ge (by omega)]
    omega

/-- Modelled from the spec: a conformant zigzag encoder (the bijection the
decoder is required to invert; the repository contains no encoder). -/
def zigzagSpec (v : Int) : Nat :=
  if 0 ≤ v then 2 * v.toNat else 2 * (-v).toNat - 1

/-!
## C5
-/

/-- C5: the zigzag decoder maps every unsigned `u` (as a 64-bit value) to
`u / 2` if `u` is even and to `-(u / 2) - 1` if `u` is odd, and consequently
`unzigzag (zigzag v) = v` for every signed 64-bit `v` and any conformant
zigzag encoder. -/
theorem C5_unzigzag_spec_and_roundtrip :
    (∀ u : Nat, u < 2 ^ 64 →
      unzigzag u = if u % 2 = 0 then ((u / 2 : Nat) : Int) else -((u / 2 : Nat) : Int) - 1) ∧
    (∀ v : Int, -(2 ^ 63) ≤ v → v < 2 ^ 63 → unzigzag (zigzagSpec v) = v) := by
  refine ⟨fun u hu => unzigzag_eval hu, fun v h1 h2 => ?_⟩
  by_cases hv : 0 ≤ v
  · have ht : v.toNat < 2 ^ 63 := by omega
    rw [zigzagSpec, if_pos hv, unzigzag_eval (by omega)]
    rw [if_pos (by omega)]
    omega
  · have ht : 1 ≤ (-v).toNat ∧ (-v).toNat ≤ 2 ^ 63 := by omega
    rw [zigzagSpec, if_neg hv, unzigzag_eval (by omega)]
    rw [if_neg (by omega)]
    omega

theorem C5_witness : unzigzag 7 = -4 ∧ unzigzag (zigzagSpec (-3)) = -3 := by
  constructor
  · have h := C5_unzigzag_spec_and_roundtrip.1 7 (by norm_num)
    norm_num at h
    exact h
  · exact C5_unzigzag_spec_and_roundtrip.2 (-3) (by norm_num) (by norm_num)

/-!
## C6
-/

/-- C6: an input stream whose first byte has type nibble 0 or above 7 makes
`Decode` fail with the unknown-geometry error (no geometry value). -/
theorem C6_unknown_geom_error (b : Nat) (rest : List Nat)
    (h : b &&& 0x0F = 0 ∨ 7 < b &&& 0x0F) :
    Decode (b :: rest) = .error .unknownGeom := by
  have hc : b &&& 0x0F < 1 ∨ 7 < b &&& 0x0F := by omega
  show decodeFuel ((b :: rest).length + 1) (b :: rest) = _
  rw [List.length_cons, decodeFuel, decodeStep, parseHeader.eq_def]
  dsimp only
  rw [if_pos hc]

theorem C6_witness : Decode [8, 0] = .error .unknownGeom :=
  C6_unknown_geom_error 8 [0] (Or.inr (by decide))

/-!
## Varint machinery (C7, C10)
-/

theorem and_two_pow_sub_one (n k : Nat) : n &&& (2 ^ k - 1) = n % 2 ^ k := by
  apply Nat.eq_of_testBit_eq
  intro i
  simp only [Nat.testBit_land, Nat.testBit_two_pow_sub_one, Nat.testBit_mod_two_pow]
  rw [Bool.and_comm]

theorem and_127_eq_mod (n : Nat) : n &&& 127 = n % 128 := by
  have h := and_two_pow_sub_one n 7
  norm_num at h
  exact h

theorem and_128_eq (b : Nat) : b &&& 128 = b / 128 % 2 * 128 := by
  have h : (128 : Nat) = 2 ^ 7 := by norm_num
  rw [h, Nat.and_two_pow, Nat.testBit_to_div_mod]
  rcases Nat.mod_two_eq_zero_or_one (b / 2 ^ 7) with h0 | h0 <;> rw [h0] <;> simp

theorem lor_eq_add_of_lt {a : Nat} (c s : Nat) (h : a < 2 ^ s) :
    a ||| c * 2 ^ s = a + c * 2 ^ s := by
  have hm := Nat.mul_add_lt_is_or h c
  rw [Nat.lor_comm, Nat.mul_comm c (2 ^ s), ← hm]
  ring

/-- Folding one byte group into the varint accumulator: `or`-ing a truncated
shifted group into an accumulator whose bits sit below `shift` is modular
addition. -/
theorem lor_shift_mod (val t shift : Nat) (hval : val < 2 ^ shift) (hval64 : val < 2 ^ 64) :
    val ||| ((t * 2 ^ shift) % 2 ^ 64) = (val + t * 2 ^ shift) % 2 ^ 64 := by
  by_cases hs : shift < 64
  · have hsplit : (2 : Nat) ^ 64 = 2 ^ (64 - shift) * 2 ^ shift := by
      rw [← pow_add]
      congr 1
      omega
    have hm : t * 2 ^ shift % 2 ^ 64 = t % 2 ^ (64 - shift) * 2 ^ shift := by
      rw [hsplit, Nat.mul_mod_mul_right]
    have hbound : t % 2 ^ (64 - shift) * 2 ^ shift ≤ (2 ^ (64 - shift) - 1) * 2 ^ shift := by
      refine Nat.mul_le_mul_right _ ?_
      have := Nat.mod_lt t (y := 2 ^ (64 - shift)) (by positivity)
      omega
    have hexp : (2 ^ (64 - shift) - 1) * 2 ^ shift = 2 ^ 64 - 2 ^ shift := by
      rw [Nat.sub_mul, ← pow_add, one_mul]
      congr 2
      omega
    rw [hm, lor_eq_add_of_lt _ _ hval]
    omega
  · have hzero : t * 2 ^ shift % 2 ^ 64 = 0 := by
      have hsplit : (2 : Nat) ^ shift = 2 ^ 64 * 2 ^ (shift - 64) := by
        rw [← pow_add]
        congr 1
        omega
      rw [hsplit, Nat.mul_comm (2 ^ 64) (2 ^ (shift - 64)), ← Nat.mul_assoc]
      exact Nat.mul_mod_left _ _
    rw [hzero, Nat.or_zero]
    omega

/-- Modelled from the spec: the conformant little-endian base-128 varint
encoder (7 payload bits per byte, most significant bit = continuation; the
repository contains no encoder).  The fuel argument only bounds the
recursion; `n` itself is always enough fuel. -/
def specVarintEncodeAux : Nat → Nat → List Nat
  | 0, n => [n]
  | fuel+1, n => if n < 128 then [n] else (128 + n % 128) :: specVarintEncodeAux fuel (n / 128)

/-- The conformant varint encoding of `n`. -/
def specVarintEncode (n : Nat) : List Nat := specVarintEncodeAux n n

theorem readVarInt64Aux_encode (fuel : Nat) :
    ∀ n val shift rest, n ≤ fuel → val < 2 ^ shift → val + n * 2 ^ shift < 2 ^ 64 →
      readVarInt64Aux (specVarintEncodeAux fuel n ++ rest) val shift =
        some (val + n * 2 ^ shift, rest) := by
  induction fuel with
  | zero =>
    intro n val shift rest hn hv hb
    have hn0 : n = 0 := by omega
    subst hn0
    rw [specVarintEncodeAux, List.cons_append, List.nil_append, readVarInt64Aux,
      if_pos (show (0 : Nat) &&& 0x80 = 0 from rfl)]
    simp
  | succ fuel ih =>
    intro n val shift rest hn hv hb
    by_cases hsmall : n < 128
    · rw [specVarintEncodeAux, if_pos hsmall, List.cons_append, List.nil_append,
        readVarInt64Aux,
        if_pos (show n &&& 0x80 = 0 from by have := and_128_eq n; omega),
        Nat.shiftLeft_eq, lor_shift_mod val n shift hv (by omega),
        Nat.mod_eq_of_lt hb]
    · rw [specVarintEncodeAux, if_neg hsmall, List.cons_append, readVarInt64Aux,
        if_neg (show ¬((128 + n % 128) &&& 0x80 = 0) from by
          have := and_128_eq (128 + n % 128)
          omega),
        show (128 + n % 128) &&& 0x7f = n % 128 from by
          have := and_127_eq_mod (128 + n % 128)
          omega,
        Nat.shiftLeft_eq, lor_shift_mod val (n % 128) shift hv (by omega)]
      have hle : n / 128 ≤ fuel := by omega
      have hx : (2 : Nat) ^ (shift + 7) = 2 ^ shift * 128 := by
        rw [pow_add]
        norm_num
      have key : n % 128 * 2 ^ shift + n / 128 * 2 ^ (shift + 7) = n * 2 ^ shift := by
        rw [hx]
        conv_rhs => rw [← Nat.mod_add_div n 128]
        ring
      have hmul_le : n % 128 * 2 ^ shift ≤ n * 2 ^ shift :=
        Nat.mul_le_mul_right _ (Nat.mod_le _ _)
      have hmod_eq : (val + n % 128 * 2 ^ shift) % 2 ^ 64 = val + n % 128 * 2 ^ shift :=
        Nat.mod_eq_of_lt (by omega)
      rw [hmod_eq]
      have hv' : val + n % 128 * 2 ^ shift < 2 ^ (shift + 7) := by
        have h1 : n % 128 * 2 ^ shift ≤ 127 * 2 ^ shift :=
          Nat.mul_le_mul_right _ (by omega)
        have h2 : (2 : Nat) ^ (shift + 7) = 128 * 2 ^ shift := by
          rw [pow_add]
          ring
        omega
      have hb' : val + n % 128 * 2 ^ shift + n / 128 * 2 ^ (shift + 7) < 2 ^ 64 := by
        omega
      rw [ih (n / 128) _ (shift + 7) rest hle hv' hb']
      have : val + n % 128 * 2 ^ shift + n / 128 * 2 ^ (shift + 7) = val + n * 2 ^ shift := by
        omega
      rw [this]

theorem readVarInt64Aux_cont_none (bs : List Nat) (h : ∀ b ∈ bs, b &&& 0x80 ≠ 0) :
    ∀ val shift, readVarInt64Aux bs val shift = none := by
  induction bs with
  | nil => intro val shift; rfl
  | cons b bs ih =>
    intro val shift
    rw [readVarInt64Aux, if_neg (h b (List.mem_cons_self b bs))]
    exact ih (fun x hx => h x (List.mem_cons_of_mem b hx)) _ _

/-!
## C7
-/

/-- C7: the unsigned varint reader decodes any byte sequence produced by a
conformant little-endian base-128 varint encoder (of a 64-bit value) back to
the original value and leaves the trailing bytes untouched; and on a
truncated varint — every available byte still has the continuation bit set —
it returns a read failure, never a value. -/
theorem C7_varint_roundtrip_and_truncation :
    (∀ n : Nat, n < 2 ^ 64 → ∀ rest : List Nat,
        readVarInt64 (specVarintEncode n ++ rest) = some (n, rest)) ∧
    (∀ bs : List Nat, (∀ b ∈ bs, b &&& 0x80 ≠ 0) → readVarInt64 bs = none) := by
  constructor
  · intro n hn rest
    have h := readVarInt64Aux_encode n n 0 0 rest (Nat.le_refl n) (by norm_num)
      (by simpa using hn)
    simpa [readVarInt64, specVarintEncode] using h
  · intro bs hbs
    exact readVarInt64Aux_cont_none bs hbs 0 0

theorem C7_witness :
    readVarInt64 (specVarintEncode 300 ++ [5]) = some (300, [5]) ∧
    readVarInt64 [172, 130] = none :=
  ⟨C7_varint_roundtrip_and_truncation.1 300 (by norm_num) [5],
    C7_varint_roundtrip_and_truncation.2 [172, 130] (by decide)⟩

/-!
## C10
-/

/-- The numeric value denoted by a list of 7-bit payload groups (low groups
first); used to describe what `readVarInt64` assembles. -/
def varintValue : List Nat → Nat
  | [] => 0
  | b :: bs => b % 128 + 128 * varintValue bs

theorem varintValue_append (xs ys : List Nat) :
    varintValue (xs ++ ys) = varintValue xs + 128 ^ xs.length * varintValue ys := by
  induction xs with
  | nil => simp [varintValue]
  | cons b xs ih =>
    rw [List.cons_append, varintValue, ih, varintValue, List.length_cons, pow_succ]
    ring

/-- Running the varint loop over continuation bytes `cs` and a final
terminator `t`: the result is the modular sum of all shifted payload
groups. -/
theorem readVarInt64Aux_cont (cs : List Nat) :
    ∀ t rest val shift, (∀ b ∈ cs, 128 ≤ b ∧ b < 256) → t < 128 →
      val < 2 ^ shift → val < 2 ^ 64 →
      readVarInt64Aux (cs ++ t :: rest) val shift =
        some ((val + varintValue cs * 2 ^ shift + t * 2 ^ (shift + 7 * cs.length)) % 2 ^ 64,
          rest) := by
  induction cs with
  | nil =>
    intro t rest val shift hcs ht hv hv64
    rw [List.nil_append, readVarInt64Aux,
      if_pos (show t &&& 0x80 = 0 from by have := and_128_eq t; omega),
      Nat.shiftLeft_eq, lor_shift_mod val t shift hv hv64]
    simp [varintValue]
  | cons b cs ih =>
    intro t rest val shift hcs ht hv hv64
    obtain ⟨hb1, hb2⟩ := hcs b (List.mem_cons_self b cs)
    rw [List.cons_append, readVarInt64Aux,
      if_neg (show ¬(b &&& 0x80 = 0) from by have := and_128_eq b; omega),
      and_127_eq_mod b, Nat.shiftLeft_eq,
      lor_shift_mod val (b % 128) shift hv hv64]
    have hv64' : (val + b % 128 * 2 ^ shift) % 2 ^ 64 < 2 ^ 64 :=
      Nat.mod_lt _ (by norm_num)
    have hv' : (val + b % 128 * 2 ^ shift) % 2 ^ 64 < 2 ^ (shift + 7) := by
      have h1 : b % 128 * 2 ^ shift ≤ 127 * 2 ^ shift :=
        Nat.mul_le_mul_right _ (by omega)
      have h2 : (2 : Nat) ^ (shift + 7) = 128 * 2 ^ shift := by
        rw [pow_add]
        ring
      have h3 : (val + b % 128 * 2 ^ shift) % 2 ^ 64 ≤ val + b % 128 * 2 ^ shift :=
        Nat.mod_le _ _
      omega
    rw [ih t rest _ (shift + 7) (fun x hx => hcs x (List.mem_cons_of_mem b hx)) ht hv' hv64']
    simp only [Option.some.injEq, Prod.mk.injEq]
    refine ⟨?_, trivial⟩
    have e2 : (2 : Nat) ^ (shift + 7 + 7 * cs.length) = 2 ^ (shift + 7 * (b :: cs).length) := by
      rw [List.length_cons]
      congr 1
      ring
    have h2 : (2 : Nat) ^ (shift + 7) = 128 * 2 ^ shift := by
      rw [pow_add]
      ring
    have expand : varintValue (b :: cs) * 2 ^ shift =
        b % 128 * 2 ^ shift + varintValue cs * 2 ^ (shift + 7) := by
      rw [varintValue, h2]
      ring
    rw [e2, expand]
    omega

/-- C10: a terminated varint longer than 10 bytes does not fail and is not
detected as overflow: groups shifted by 64 or more bits vanish modulo
`2 ^ 64`, so the decoded value is assembled from the low-order groups only
(the first 10 bytes), and overlong or overflowing varints silently decode to
a wrong value instead of an error. -/
theorem C10_overlong_varint_truncates (cs : List Nat) (t : Nat) (rest : List Nat)
    (hcs : ∀ b ∈ cs, 128 ≤ b ∧ b < 256) (ht : t < 128) (hlen : 10 ≤ cs.length) :
    readVarInt64 (cs ++ t :: rest) = some (varintValue (cs.take 10) % 2 ^ 64, rest) := by
  have h := readVarInt64Aux_cont cs t rest 0 0 hcs ht (by norm_num) (by norm_num)
  rw [readVarInt64, h]
  simp only [Option.some.injEq, Prod.mk.injEq]
  refine ⟨?_, trivial⟩
  have hsplit : varintValue cs =
      varintValue (cs.take 10) + 2 ^ 70 * varintValue (cs.drop 10) := by
    conv_lhs => rw [← List.take_append_drop 10 cs]
    rw [varintValue_append, List.length_take, Nat.min_eq_left hlen]
    norm_num
  have hE : (2 : Nat) ^ (0 + 7 * cs.length) = 2 ^ 64 * 2 ^ (7 * cs.length - 64) := by
    rw [← pow_add]
    congr 1
    omega
  have hterm1 : 2 ^ 70 * varintValue (cs.drop 10) =
      2 ^ 64 * (64 * varintValue (cs.drop 10)) := by
    ring
  have hterm2 : t * (2 ^ 64 * 2 ^ (7 * cs.length - 64)) =
      2 ^ 64 * (t * 2 ^ (7 * cs.length - 64)) := by
    ring
  rw [hsplit, hE, hterm1, hterm2]
  omega

theorem C10_witness :
    readVarInt64 (List.replicate 10 129 ++ [1]) =
      some (varintValue ((List.replicate 10 129).take 10) % 2 ^ 64, []) ∧
    varintValue ((List.replicate 10 129).take 10) % 2 ^ 64 = 9295997013522923649 := by
  constructor
  · exact C10_overlong_varint_truncates (List.replicate 10 129) 1 []
      (by decide) (by decide) (by decide)
  · decide

set_option maxRecDepth 100000

/-!
## C1
-/

/-- C1 (code-bug evidence): with type-and-precision byte `0x11` — type
nibble 1 (Point), precision nibble 1 = zigzag(-1) — the decoder computes
precision 0 and scale factor 1, so the deltas 1, 1 decode to the coordinate
(1, 1), where the claim (precision nibble un-zigzagged, `p = -1`, scale
`10 ^ -1`) requires (10, 10).  The root cause: `Decode` computes
`unzigzag(uint64(flag&0xF0)) >> 4`, un-zigzagging *before* the 4-bit shift —
`flag&0xF0` is always even, so the zigzag decode is a plain halving and every
odd (negative-precision) nibble `h` yields `h / 2 ≥ 0` instead of
`-(h+1)/2 < 0`; the second conjunct shows the computed precision, the third
what the nibble's zigzag value actually is. -/
theorem C1_negative_precision_broken :
    Decode [0x11, 0x00, 0x02, 0x02] =
      .ok (.point ⟨some ⟨1, 0, some [1, 1, 1, 1]⟩, [1, 1]⟩, []) ∧
    Int.fdiv (unzigzag (0x11 &&& 0xF0)) 16 = 0 ∧
    unzigzag ((0x11 : Nat) >>> 4) = -1 := by
  refine ⟨?_, by decide, by decide⟩
  with_unfolding_all rfl

/-!
## C2
-/

/-- C2 (code-bug evidence): a read failure while reading the *last* polygon
ring's coordinates is swallowed — `decodePolygon` assigns the `readCoords`
error to `err` but never checks it inside the ring loop, and after the loop
returns the polygon with a nil error.  On this stream (Polygon, one ring
declaring 4 points but with only one delta byte available) `Decode` returns a
partial Polygon whose single ring is empty, not a failure. -/
theorem C2_polygon_swallows_last_ring_error :
    Decode [0x03, 0x00, 0x01, 0x04, 0x00] =
      .ok (.polygon ⟨some ⟨3, 0, none⟩, [[]]⟩, []) := by
  with_unfolding_all rfl

/-!
## C3 counterexample
-/

/-- C3 counterexample: decoding a Polygon (bbox flag clear, one ring, one
coordinate) succeeds after reading coordinates, yet the returned header
carries no bounding box — `decodePolygon` discards the incidental bbox that
`readCoords` accumulated, refuting the claim that every coordinate-reading
body decoder attaches it. -/
theorem C3_cex_polygon_drops_bbox :
    Decode [0x03, 0x00, 0x01, 0x01, 0x02, 0x02] =
      .ok (.polygon ⟨some ⟨3, 0, none⟩, [[[1, 1]]]⟩, []) := by
  with_unfolding_all rfl

/-!
## C4 counterexample
-/

/-- C4 counterexample: decoding a MultiPoint with one member yields a member
`Point` whose header is `none` (`decodePoint(d, nil)`), so the member's
`Type()` and `Dim()` accessors dereference a nil `*Hdr` — they are not
defined for members, refuting the claim. -/
theorem C4_cex_member_has_nil_header :
    Decode [0x04, 0x00, 0x01, 0x02, 0x02] =
      .ok (.multiPoint ⟨some ⟨4, 0, none⟩, [], [⟨none, [1, 1]⟩]⟩, []) := by
  with_unfolding_all rfl

/-!
## C3: bbox accumulation machinery
-/

/-- Specification-side fold: the per-dimension min/max updates applied by one
coordinate, starting at dimension index `j`. -/
def dimsUpd (ndims : Nat) : Nat → List ℚ → List ℚ → List ℚ
  | _, [], bb => bb
  | j, q :: coord, bb => dimsUpd ndims (j+1) coord (updMax (updMin bb j q) (j + ndims) q)

/-- The incidental bounding box of a coordinate block: every coordinate folded
into the `initBBox` seed. -/
def foldBBox (ndims : Nat) (coords : List (List ℚ)) : List ℚ :=
  coords.foldl (fun bb c => dimsUpd ndims 0 c bb) (initBBox ndims)

/-- `readDims` only mutates the reference-point accumulator. -/
theorem readDims_state (s : DecSt) (bb : Option (List ℚ)) (j k : Nat) (bs : List Nat) :
    (readDims s bb j k bs).2.1 = { s with refpoint := (readDims s bb j k bs).2.1.refpoint } := by
  induction k generalizing s bb j bs with
  | zero => rfl
  | succ k ih =>
    rw [readDims]
    cases hr : readVarSInt64 bs with
    | none => rfl
    | some p =>
      obtain ⟨val, bs1⟩ := p
      simp only
      have h := ih { s with refpoint := s.refpoint.set j (wrap64 (s.refpoint.getD j 0 + val)) }
        (bb.map fun b =>
          updMax (updMin b j ((wrap64 (s.refpoint.getD j 0 + val) : Int) / (s.factors.getD j 0 : Int) : ℚ))
            (j + s.ndims) ((wrap64 (s.refpoint.getD j 0 + val) : Int) / (s.factors.getD j 0 : Int) : ℚ))
        (j+1) bs1
      cases hrec : readDims { s with refpoint := s.refpoint.set j (wrap64 (s.refpoint.getD j 0 + val)) }
          (bb.map fun b =>
            updMax (updMin b j ((wrap64 (s.refpoint.getD j 0 + val) : Int) / (s.factors.getD j 0 : Int) : ℚ))
              (j + s.ndims) ((wrap64 (s.refpoint.getD j 0 + val) : Int) / (s.factors.getD j 0 : Int) : ℚ))
          (j+1) k bs1 with
      | mk res rest =>
        rw [hrec] at h
        obtain ⟨st, bs2⟩ := rest
        cases res with
        | none => simpa using h
        | some pr =>
          obtain ⟨coord, bbOut⟩ := pr
          simpa using h

/-- `readCoordsLoop` only mutates the reference-point accumulator. -/
theorem readCoordsLoop_state (s : DecSt) (bb : Option (List ℚ)) (n : Nat) (bs : List Nat) :
    (readCoordsLoop s bb n bs).2.1 =
      { s with refpoint := (readCoordsLoop s bb n bs).2.1.refpoint } := by
  induction n generalizing s bb bs with
  | zero => rfl
  | succ n ih =>
    rw [readCoordsLoop]
    split
    · next s1 bs1 heq =>
      have h := readDims_state s bb 0 s.ndims bs
      rw [heq] at h
      simpa using h
    · next coord bb1 s1 bs1 heq =>
      have hd := readDims_state s bb 0 s.ndims bs
      rw [heq] at hd
      simp only at hd
      have h := ih s1 bb1 bs1
      split
      · next coords bbOut s2 bs2 heq2 =>
        rw [heq2] at h
        simp only at h
        rw [h, hd]
      · next s2 bs2 heq2 =>
        rw [heq2] at h
        simp only at h
        rw [h, hd]

/-- `readCoords` only mutates the reference-point accumulator. -/
theorem readCoords_state (s : DecSt) (n : Nat) (bs : List Nat) :
    (readCoords s n bs).2.1 = { s with refpoint := (readCoords s n bs).2.1.refpoint } :=
  readCoordsLoop_state s _ n bs

/-- What `readDims` does to a present incidental bbox: exactly the
`dimsUpd` fold of the coordinate it produced. -/
theorem readDims_bbox (s : DecSt) (bb : List ℚ) (j k : Nat) (bs : List Nat)
    (coord : List ℚ) (bbOut : Option (List ℚ)) (s' : DecSt) (bs' : List Nat)
    (h : readDims s (some bb) j k bs = (some (coord, bbOut), s', bs')) :
    bbOut = some (dimsUpd s.ndims j coord bb) := by
  induction k generalizing s bb j bs coord bbOut s' bs' with
  | zero =>
    rw [readDims] at h
    simp only [Prod.mk.injEq, Option.some.injEq] at h
    obtain ⟨⟨hc, hb⟩, -, -⟩ := h
    rw [← hc, ← hb, dimsUpd]
  | succ k ih =>
    rw [readDims] at h
    split at h
    · simp at h
    · next val bs1 hr =>
      simp only [Option.map_some'] at h
      split at h
      · next coordT bbT s2 bs2 heq =>
        simp only [Prod.mk.injEq, Option.some.injEq] at h
        obtain ⟨⟨hc, hb⟩, -, -⟩ := h
        have hrec := ih _ _ _ _ _ _ _ _ heq
        rw [← hc, ← hb, dimsUpd]
        simpa using hrec
      · simp at h

/-- What `readCoordsLoop` does to a present incidental bbox: the fold of all
coordinates it produced. -/
theorem readCoordsLoop_bbox (s : DecSt) (bb : List ℚ) (n : Nat) (bs : List Nat)
    (coords : List (List ℚ)) (bbOut : Option (List ℚ)) (s' : DecSt) (bs' : List Nat)
    (h : readCoordsLoop s (some bb) n bs = (some (coords, bbOut), s', bs')) :
    bbOut = some (coords.foldl (fun b c => dimsUpd s.ndims 0 c b) bb) := by
  induction n generalizing s bb bs coords bbOut s' bs' with
  | zero =>
    rw [readCoordsLoop] at h
    simp only [Prod.mk.injEq, Option.some.injEq] at h
    obtain ⟨⟨hc, hb⟩, -, -⟩ := h
    rw [← hc, ← hb]
    rfl
  | succ n ih =>
    rw [readCoordsLoop] at h
    split at h
    · simp at h
    · next coord bb1 s1 bs1 heq =>
      have hbb1 : bb1 = some (dimsUpd s.ndims 0 coord bb) := readDims_bbox _ _ _ _ _ _ _ _ _ heq
      have hst := readDims_state s (some bb) 0 s.ndims bs
      rw [heq] at hst
      simp only at hst
      subst hbb1
      split at h
      · next coordsT bbT s2 bs2 heq2 =>
        simp only [Prod.mk.injEq, Option.some.injEq] at h
        obtain ⟨⟨hc, hb⟩, -, -⟩ := h
        have hrec := ih _ _ _ _ _ _ _ heq2
        rw [← hc, ← hb, List.foldl_cons]
        rw [hrec, hst]
      · simp at h

/-- `readCoords` with the header-bbox flag clear: a successful read returns
the incidental bbox `foldBBox` of the coordinates it produced. -/
theorem readCoords_bbox (s : DecSt) (hs : s.bbox = false) (n : Nat) (bs : List Nat)
    (coords : List (List ℚ)) (bbOut : Option (List ℚ)) (s' : DecSt) (bs' : List Nat)
    (h : readCoords s n bs = (some (coords, bbOut), s', bs')) :
    bbOut = some (foldBBox s.ndims coords) := by
  rw [readCoords] at h
  rw [hs] at h
  simp only [Bool.false_eq_true, if_false] at h
  exact readCoordsLoop_bbox _ _ _ _ _ _ _ _ h

/-- A successful one-coordinate `readCoords` returns a singleton block. -/
theorem readCoords_one (s : DecSt) (bs : List Nat) (coords : List (List ℚ))
    (bb : Option (List ℚ)) (s' : DecSt) (bs' : List Nat)
    (h : readCoords s 1 bs = (some (coords, bb), s', bs')) :
    ∃ c, coords = [c] := by
  rw [readCoords, readCoordsLoop] at h
  split at h
  · simp at h
  · next coord bb1 s1 bs1 heq =>
    rw [readCoordsLoop] at h
    simp only [Prod.mk.injEq, Option.some.injEq] at h
    obtain ⟨⟨hc, -⟩, -, -⟩ := h
    exact ⟨coord, hc.symm⟩

/-!
## C3: amended claim
-/

/-- C3 (amended): with the bbox flag clear, the Point and LineString body
decoders accumulate an incidental bounding box on the fly — initialised per
dimension to `[float64(MaxInt64), float64(MinInt64)]`, i.e. `[2^63, -(2^63)]`,
not `[+inf, -inf]` — and attach it to the returned geometry's header; the
Polygon body decoder computes per-ring boxes but discards them and attaches
nothing, returning the header unchanged. -/
theorem C3_amended_bbox_attachment :
    ∀ (s : DecSt) (hh : Hdr) (bs : List Nat), s.bbox = false →
      ((∀ p s1 rest, decodePoint s (some hh) bs = .ok (p, s1, rest) →
          p.hdr = some { hh with bbox := some (foldBBox s.ndims [p.coord]) }) ∧
        (∀ l s1 rest, decodeLineString s (some hh) bs = .ok (l, s1, rest) →
          l.hdr = some { hh with bbox := some (foldBBox s.ndims l.coords) }) ∧
        (∀ pg s1 rest, decodePolygon s (some hh) bs = .ok (pg, s1, rest) →
          pg.hdr = some hh)) := by
  intro s hh bs hsb
  refine ⟨?_, ?_, ?_⟩
  · intro p s1 rest h
    rw [decodePoint] at h
    split at h
    · simp at h
    · next coords bb s2 bs2 heq =>
      obtain ⟨c, hc⟩ := readCoords_one _ _ _ _ _ _ heq
      have hbb := readCoords_bbox s hsb 1 bs _ _ _ _ heq
      subst hbb
      subst hc
      simp only [Option.some.injEq, Except.ok.injEq, Prod.mk.injEq] at h
      obtain ⟨hp, -, -⟩ := h
      rw [← hp]
      simp
  · intro l s1 rest h
    rw [decodeLineString] at h
    split at h
    · simp at h
    · next n bs1 hr =>
      split at h
      · simp at h
      · next coords bb s2 bs2 heq =>
        have hbb := readCoords_bbox s hsb n bs1 _ _ _ _ heq
        subst hbb
        simp only [Option.some.injEq, Except.ok.injEq, Prod.mk.injEq] at h
        obtain ⟨hl, -, -⟩ := h
        rw [← hl]
  · intro pg s1 rest h
    rw [decodePolygon] at h
    split at h
    · simp at h
    · next n bs1 hr =>
      split at h
      · simp at h
      · next rings s2 bs2 heq =>
        simp only [Except.ok.injEq, Prod.mk.injEq] at h
        obtain ⟨hp, -, -⟩ := h
        rw [← hp]

theorem C3_witness :
    Point.hdr ⟨some ⟨1, 0, some [1, 1, 1, 1]⟩, [1, 1]⟩ =
      some { (⟨1, 0, none⟩ : Hdr) with bbox := some (foldBBox 2 [[1, 1]]) } :=
  (C3_amended_bbox_attachment ⟨[0, 0, 0, 0], [1, 1, 0, 0], 2, false, false, false, false, 0⟩
      ⟨1, 0, none⟩ [2, 2] rfl).1
    ⟨some ⟨1, 0, some [1, 1, 1, 1]⟩, [1, 1]⟩
    ⟨[1, 1, 0, 0], [1, 1, 0, 0], 2, false, false, false, false, 0⟩ []
    (by with_unfolding_all rfl)

/-!
## C4: header presence machinery
-/

/-- The header a `Geometry` value exposes (`Type()` / `Dim()` dereference it;
`none` is Go's nil `*Hdr`, on which both accessors panic). -/
def Geometry.hdrOf : Geometry → Option Hdr
  | .point p => p.hdr
  | .lineString l => l.hdr
  | .polygon p => p.hdr
  | .multiPoint m => m.hdr
  | .multiLineString m => m.hdr
  | .multiPolygon m => m.hdr
  | .collection h _ _ => h
  | .bareHdr h => some h

theorem map_eq_ok {ε α β : Type} {f : α → β} {x : Except ε α} {y : β}
    (h : Except.map f x = .ok y) : ∃ a, x = .ok a ∧ y = f a := by
  cases x with
  | error e => simp [Except.map] at h
  | ok a =>
    refine ⟨a, rfl, ?_⟩
    simp only [Except.map, Except.ok.injEq] at h
    exact h.symm

theorem applyExtended_gtype_dim (e : Nat) (s : DecSt) (h : Hdr) :
    (applyExtended e s h).2.gtype = h.gtype ∧
      ((applyExtended e s h).2.dim = h.dim ∨ (applyExtended e s h).2.dim ≤ 3) := by
  rw [applyExtended]
  split_ifs <;> simp

theorem parseExtended_hdr (mflag : Nat) (s0 : DecSt) (h0 : Hdr) (bs : List Nat)
    (s1 : DecSt) (h1 : Hdr) (bs1 : List Nat)
    (h : parseExtended mflag s0 h0 bs = .ok (s1, h1, bs1)) :
    h1.gtype = h0.gtype ∧ (h1.dim = h0.dim ∨ h1.dim ≤ 3) := by
  rw [parseExtended.eq_def] at h
  split_ifs at h
  · split at h
    · simp at h
    · next e bs2 =>
      rcases hae : applyExtended e s0 h0 with ⟨sA, hA⟩
      rw [hae] at h
      simp only [Except.ok.injEq, Prod.mk.injEq] at h
      obtain ⟨-, hh, -⟩ := h
      have hgd := applyExtended_gtype_dim e s0 h0
      rw [hae] at hgd
      dsimp only at hgd
      rw [hh] at hgd
      exact hgd
  · simp only [Except.ok.injEq, Prod.mk.injEq] at h
    obtain ⟨-, hh, -⟩ := h
    subst hh
    exact ⟨rfl, Or.inl rfl⟩

theorem parseBBox_hdr (s2 : DecSt) (h1 : Hdr) (bs : List Nat)
    (s : DecSt) (h : Hdr) (rest : List Nat)
    (hp : parseBBox s2 h1 bs = .ok (s, h, rest)) :
    h.gtype = h1.gtype ∧ h.dim = h1.dim := by
  rw [parseBBox] at hp
  split_ifs at hp
  · split at hp
    · simp at hp
    · simp only [Except.ok.injEq, Prod.mk.injEq] at hp
      obtain ⟨-, hh, -⟩ := hp
      rw [← hh]
      exact ⟨rfl, rfl⟩
  · simp only [Except.ok.injEq, Prod.mk.injEq] at hp
    obtain ⟨-, hh, -⟩ := hp
    subst hh
    exact ⟨rfl, rfl⟩

/-- A successfully parsed header has a kind in 1..7 and a dimensionality code
in 0..3. -/
theorem parseHeader_ok (bs : List Nat) (s : DecSt) (h : Hdr) (rest : List Nat)
    (hp : parseHeader bs = .ok (s, h, rest)) :
    1 ≤ h.gtype ∧ h.gtype ≤ 7 ∧ h.dim ≤ 3 := by
  rw [parseHeader.eq_def] at hp
  split at hp
  · simp at hp
  · next flag bs1 =>
    by_cases hflag : flag &&& 0x0F < 1 ∨ 7 < flag &&& 0x0F
    · rw [if_pos hflag] at hp
      exact Except.noConfusion hp
    · rw [if_neg hflag] at hp
      split at hp
      · simp at hp
      · next mflag bs2 =>
        split at hp
        · simp at hp
        · next s1 h1 bs3 hext =>
          split at hp
          · simp at hp
          · next s2 bs4 hsz =>
            have hb := parseBBox_hdr _ _ _ _ _ _ hp
            have he := parseExtended_hdr _ _ _ _ _ _ _ hext
            simp only [initHdr] at he
            omega

theorem decodePoint_hdr (s : DecSt) (hh : Hdr) (bs : List Nat) (p : Point)
    (s1 : DecSt) (rest : List Nat)
    (h : decodePoint s (some hh) bs = .ok (p, s1, rest)) :
    ∃ b, p.hdr = some { hh with bbox := b } := by
  rw [decodePoint] at h
  split at h
  · simp at h
  · next coords bb s2 bs2 heq =>
    dsimp only at h
    cases bb with
    | none =>
      simp only [Except.ok.injEq, Prod.mk.injEq] at h
      obtain ⟨hp, -, -⟩ := h
      refine ⟨hh.bbox, ?_⟩
      rw [← hp]
    | some b =>
      simp only [Except.ok.injEq, Prod.mk.injEq] at h
      obtain ⟨hp, -, -⟩ := h
      refine ⟨some b, ?_⟩
      rw [← hp]

theorem decodeLineString_hdr (s : DecSt) (hh : Hdr) (bs : List Nat) (l : LineString)
    (s1 : DecSt) (rest : List Nat)
    (h : decodeLineString s (some hh) bs = .ok (l, s1, rest)) :
    ∃ b, l.hdr = some { hh with bbox := b } := by
  rw [decodeLineString] at h
  split at h
  · simp at h
  · next n bs1 hr =>
    split at h
    · simp at h
    · next coords bb s2 bs2 heq =>
      dsimp only at h
      cases bb with
      | none =>
        simp only [Except.ok.injEq, Prod.mk.injEq] at h
        obtain ⟨hp, -, -⟩ := h
        refine ⟨hh.bbox, ?_⟩
        rw [← hp]
      | some b =>
        simp only [Except.ok.injEq, Prod.mk.injEq] at h
        obtain ⟨hp, -, -⟩ := h
        refine ⟨some b, ?_⟩
        rw [← hp]

theorem decodePolygon_hdr (s : DecSt) (hh : Hdr) (bs : List Nat) (pg : Polygon)
    (s1 : DecSt) (rest : List Nat)
    (h : decodePolygon s (some hh) bs = .ok (pg, s1, rest)) :
    ∃ b, pg.hdr = some { hh with bbox := b } := by
  rw [decodePolygon] at h
  split at h
  · simp at h
  · next n bs1 hr =>
    split at h
    · simp at h
    · next rings s2 bs2 heq =>
      simp only [Except.ok.injEq, Prod.mk.injEq] at h
      obtain ⟨hp, -, -⟩ := h
      refine ⟨hh.bbox, ?_⟩
      rw [← hp]

theorem decodeMultiPoint_hdr (s : DecSt) (hh : Hdr) (bs : List Nat) (m : MultiPoint)
    (s1 : DecSt) (rest : List Nat)
    (h : decodeMultiPoint s (some hh) bs = .ok (m, s1, rest)) :
    m.hdr = some hh := by
  rw [decodeMultiPoint] at h
  split at h
  · simp at h
  · next mh bs1 hmh =>
    split at h
    · simp at h
    · next ps s2 bs2 heq =>
      simp only [Except.ok.injEq, Prod.mk.injEq] at h
      obtain ⟨hp, -, -⟩ := h
      rw [← hp]

theorem decodeMultiLineString_hdr (s : DecSt) (hh : Hdr) (bs : List Nat)
    (m : MultiLineString) (s1 : DecSt) (rest : List Nat)
    (h : decodeMultiLineString s (some hh) bs = .ok (m, s1, rest)) :
    m.hdr = some hh := by
  rw [decodeMultiLineString] at h
  split at h
  · simp at h
  · next mh bs1 hmh =>
    split at h
    · simp at h
    · next ls s2 bs2 heq =>
      simp only [Except.ok.injEq, Prod.mk.injEq] at h
      obtain ⟨hp, -, -⟩ := h
      rw [← hp]

theorem decodeMultiPolygon_hdr (s : DecSt) (hh : Hdr) (bs : List Nat)
    (m : MultiPolygon) (s1 : DecSt) (rest : List Nat)
    (h : decodeMultiPolygon s (some hh) bs = .ok (m, s1, rest)) :
    m.hdr = some hh := by
  rw [decodeMultiPolygon] at h
  split at h
  · simp at h
  · next mh bs1 hmh =>
    split at h
    · simp at h
    · next ps s2 bs2 heq =>
      simp only [Except.ok.injEq, Prod.mk.injEq] at h
      obtain ⟨hp, -, -⟩ := h
      rw [← hp]

theorem decodeCollection_hdr (dec : List Nat → Except Err (Geometry × List Nat))
    (s : DecSt) (hh : Hdr) (bs : List Nat) (g : Geometry) (s1 : DecSt) (rest : List Nat)
    (h : decodeCollection dec s (some hh) bs = .ok (g, s1, rest)) :
    g.hdrOf = some hh := by
  rw [decodeCollection] at h
  split at h
  · simp at h
  · next mh bs1 hmh =>
    split at h
    · simp at h
    · next gs bs2 heq =>
      simp only [Except.ok.injEq, Prod.mk.injEq] at h
      obtain ⟨hp, -, -⟩ := h
      rw [← hp]
      rfl

/-- The geometry a decode step returns carries the parsed header (with at
most the bbox rewritten). -/
theorem decodeStep_hdr (dec : List Nat → Except Err (Geometry × List Nat)) (bs : List Nat)
    (g : Geometry) (rest : List Nat) (h : decodeStep dec bs = .ok (g, rest)) :
    ∃ s hh bs1, parseHeader bs = .ok (s, hh, bs1) ∧
      ∃ b, g.hdrOf = some { hh with bbox := b } := by
  rw [decodeStep] at h
  split at h
  · simp at h
  · next s hh bs1 hph =>
    refine ⟨s, hh, bs1, hph, ?_⟩
    by_cases h1 : hh.gtype = 1
    · rw [if_pos h1] at h
      obtain ⟨⟨p, s2, r2⟩, hx, hy⟩ := map_eq_ok h
      simp only [Prod.mk.injEq] at hy
      obtain ⟨hg, -⟩ := hy
      rw [hg]
      exact decodePoint_hdr _ _ _ _ _ _ hx
    · rw [if_neg h1] at h
      by_cases h2 : hh.gtype = 2
      · rw [if_pos h2] at h
        obtain ⟨⟨l, s2, r2⟩, hx, hy⟩ := map_eq_ok h
        simp only [Prod.mk.injEq] at hy
        obtain ⟨hg, -⟩ := hy
        rw [hg]
        exact decodeLineString_hdr _ _ _ _ _ _ hx
      · rw [if_neg h2] at h
        by_cases h3 : hh.gtype = 3
        · rw [if_pos h3] at h
          obtain ⟨⟨pg, s2, r2⟩, hx, hy⟩ := map_eq_ok h
          simp only [Prod.mk.injEq] at hy
          obtain ⟨hg, -⟩ := hy
          rw [hg]
          exact decodePolygon_hdr _ _ _ _ _ _ hx
        · rw [if_neg h3] at h
          by_cases h4 : hh.gtype = 4
          · rw [if_pos h4] at h
            obtain ⟨⟨m, s2, r2⟩, hx, hy⟩ := map_eq_ok h
            simp only [Prod.mk.injEq] at hy
            obtain ⟨hg, -⟩ := hy
            rw [hg]
            refine ⟨hh.bbox, ?_⟩
            have := decodeMultiPoint_hdr _ _ _ _ _ _ hx
            rw [show Geometry.hdrOf (.multiPoint m) = m.hdr from rfl, this]
          · rw [if_neg h4] at h
            by_cases h5 : hh.gtype = 5
            · rw [if_pos h5] at h
              obtain ⟨⟨m, s2, r2⟩, hx, hy⟩ := map_eq_ok h
              simp only [Prod.mk.injEq] at hy
              obtain ⟨hg, -⟩ := hy
              rw [hg]
              refine ⟨hh.bbox, ?_⟩
              have := decodeMultiLineString_hdr _ _ _ _ _ _ hx
              rw [show Geometry.hdrOf (.multiLineString m) = m.hdr from rfl, this]
            · rw [if_neg h5] at h
              by_cases h6 : hh.gtype = 6
              · rw [if_pos h6] at h
                obtain ⟨⟨m, s2, r2⟩, hx, hy⟩ := map_eq_ok h
                simp only [Prod.mk.injEq] at hy
                obtain ⟨hg, -⟩ := hy
                rw [hg]
                refine ⟨hh.bbox, ?_⟩
                have := decodeMultiPolygon_hdr _ _ _ _ _ _ hx
                rw [show Geometry.hdrOf (.multiPolygon m) = m.hdr from rfl, this]
              · rw [if_neg h6] at h
                by_cases h7 : hh.gtype = 7
                · rw [if_pos h7] at h
                  obtain ⟨⟨gc, s2, r2⟩, hx, hy⟩ := map_eq_ok h
                  simp only [Prod.mk.injEq] at hy
                  obtain ⟨hg, -⟩ := hy
                  rw [hg]
                  refine ⟨hh.bbox, ?_⟩
                  exact decodeCollection_hdr _ _ _ _ _ _ _ hx
                · rw [if_neg h7] at h
                  simp only [Except.ok.injEq, Prod.mk.injEq] at h
                  obtain ⟨hg, -⟩ := h
                  rw [← hg]
                  exact ⟨hh.bbox, rfl⟩

/-!
## C4: amended claim
-/

/-- C4 (amended): the *top-level* geometry of every successful decode carries
a header, whose kind is one of the seven geometry kinds and whose
dimensionality code is one of XY/XYZ/XYM/XYZM, fixed at construction.
(Member Point/LineString/Polygon values inside Multi* geometries, by
contrast, carry nil headers — see the counterexample — so the claim's
extension to members fails.) -/
theorem C4_amended_top_level_header :
    ∀ fuel bs g rest, decodeFuel fuel bs = .ok (g, rest) →
      ∃ hd, g.hdrOf = some hd ∧ 1 ≤ hd.gtype ∧ hd.gtype ≤ 7 ∧ hd.dim ≤ 3 := by
  intro fuel bs g rest h
  cases fuel with
  | zero => simp [decodeFuel] at h
  | succ fuel =>
    rw [decodeFuel] at h
    obtain ⟨s, hh, bs1, hph, b, hb⟩ := decodeStep_hdr _ _ _ _ h
    have hok := parseHeader_ok _ _ _ _ hph
    exact ⟨{ hh with bbox := b }, hb, hok.1, hok.2.1, hok.2.2⟩

theorem C4_witness :
    ∃ hd, (Geometry.point ⟨some ⟨1, 0, some [1, 2, 1, 2]⟩, [1, 2]⟩).hdrOf = some hd ∧
      1 ≤ hd.gtype ∧ hd.gtype ≤ 7 ∧ hd.dim ≤ 3 :=
  C4_amended_top_level_header 5 [1, 0, 2, 4]
    (.point ⟨some ⟨1, 0, some [1, 2, 1, 2]⟩, [1, 2]⟩) []
    (by with_unfolding_all rfl)

/-!
## C8: member decoding machinery
-/

/-- A successful `readDims` returns a coordinate with one value per
dimension. -/
theorem readDims_len (s : DecSt) (bb : Option (List ℚ)) (j k : Nat) (bs : List Nat)
    (coord : List ℚ) (bbOut : Option (List ℚ)) (s' : DecSt) (bs' : List Nat)
    (h : readDims s bb j k bs = (some (coord, bbOut), s', bs')) :
    coord.length = k := by
  induction k generalizing s bb j bs coord bbOut s' bs' with
  | zero =>
    rw [readDims] at h
    simp only [Prod.mk.injEq, Option.some.injEq] at h
    obtain ⟨⟨hc, -⟩, -, -⟩ := h
    rw [← hc]
    rfl
  | succ k ih =>
    rw [readDims] at h
    split at h
    · simp at h
    · next val bs1 hr =>
      simp only [] at h
      split at h
      · next coordT bbT s2 bs2 heq =>
        simp only [Prod.mk.injEq, Option.some.injEq] at h
        obtain ⟨⟨hc, -⟩, -, -⟩ := h
        rw [← hc, List.length_cons, ih _ _ _ _ _ _ _ _ heq]
      · simp at h

/-- Every coordinate of a successful `readCoordsLoop` block has one value per
dimension of the decode context. -/
theorem readCoordsLoop_len (n : Nat) :
    ∀ (s : DecSt) (bb : Option (List ℚ)) (bs : List Nat) coords bbOut s' bs',
      readCoordsLoop s bb n bs = (some (coords, bbOut), s', bs') →
      ∀ c ∈ coords, c.length = s.ndims := by
  induction n with
  | zero =>
    intro s bb bs coords bbOut s' bs' h
    rw [readCoordsLoop] at h
    simp only [Prod.mk.injEq, Option.some.injEq] at h
    obtain ⟨⟨hc, -⟩, -, -⟩ := h
    rw [← hc]
    simp
  | succ n ih =>
    intro s bb bs coords bbOut s' bs' h
    rw [readCoordsLoop] at h
    split at h
    · simp at h
    · next coord bb1 s1 bs1 heq =>
      split at h
      · next coordsT bbT s2 bs2 heq2 =>
        simp only [Prod.mk.injEq, Option.some.injEq] at h
        obtain ⟨⟨hc, -⟩, -, -⟩ := h
        have hst := readDims_state s bb 0 s.ndims bs
        rw [heq] at hst
        simp only at hst
        have h1 := readDims_len _ _ _ _ _ _ _ _ _ heq
        have h2 := ih _ _ _ _ _ _ _ heq2
        rw [← hc]
        intro c hcmem
        rcases List.mem_cons.mp hcmem with hceq | hcmem2
        · rw [hceq, h1]
        · have := h2 c hcmem2
          rw [this, hst]
      · simp at h

/-- The coordinates, final state and remaining stream of `readDims` do not
depend on the incidental bbox accumulator. -/
theorem readDims_bb_indep (k : Nat) :
    ∀ (s : DecSt) (j : Nat) (bs : List Nat) (bb1 bb2 : Option (List ℚ)),
      (readDims s bb1 j k bs).1.map Prod.fst = (readDims s bb2 j k bs).1.map Prod.fst ∧
      (readDims s bb1 j k bs).2 = (readDims s bb2 j k bs).2 := by
  induction k with
  | zero =>
    intro s j bs bb1 bb2
    rw [readDims, readDims]
    exact ⟨rfl, rfl⟩
  | succ k ih =>
    intro s j bs bb1 bb2
    rw [readDims, readDims]
    cases hr : readVarSInt64 bs with
    | none => exact ⟨rfl, rfl⟩
    | some p =>
      obtain ⟨val, bs1⟩ := p
      dsimp only
      have hrec := ih { s with refpoint := s.refpoint.set j (wrap64 (s.refpoint.getD j 0 + val)) }
        (j+1) bs1
        (bb1.map fun b =>
          updMax (updMin b j ((wrap64 (s.refpoint.getD j 0 + val) : Int) / (s.factors.getD j 0 : Int) : ℚ))
            (j + s.ndims) ((wrap64 (s.refpoint.getD j 0 + val) : Int) / (s.factors.getD j 0 : Int) : ℚ))
        (bb2.map fun b =>
          updMax (updMin b j ((wrap64 (s.refpoint.getD j 0 + val) : Int) / (s.factors.getD j 0 : Int) : ℚ))
            (j + s.ndims) ((wrap64 (s.refpoint.getD j 0 + val) : Int) / (s.factors.getD j 0 : Int) : ℚ))
      obtain ⟨hmap, hrest⟩ := hrec
      split
      · next coordT bbT s2 bs2 heq =>
        split
        · next coordT2 bbT2 s3 bs3 heq2 =>
          rw [heq, heq2] at hmap hrest
          simp only [Option.map_some', Option.some.injEq, Prod.mk.injEq] at hmap hrest
          constructor
          · simp [hmap]
          · simp [hrest.1, hrest.2]
        · next s3 bs3 heq2 =>
          rw [heq, heq2] at hmap
          simp at hmap
      · next s2 bs2 heq =>
        split
        · next coordT2 bbT2 s3 bs3 heq2 =>
          rw [heq, heq2] at hmap
          simp at hmap
        · next s3 bs3 heq2 =>
          rw [heq, heq2] at hrest
          simpa using hrest

/-- Transport a successful `readDims` to any other incidental-bbox seed:
coordinates, state and stream do not change. -/
theorem readDims_bb_transport (s : DecSt) (j k : Nat) (bs : List Nat)
    (bb1 bb2 : Option (List ℚ)) (coord : List ℚ) (bbA : Option (List ℚ))
    (s' : DecSt) (bs' : List Nat)
    (h : readDims s bb1 j k bs = (some (coord, bbA), s', bs')) :
    ∃ bbB, readDims s bb2 j k bs = (some (coord, bbB), s', bs') := by
  obtain ⟨hm, hr⟩ := readDims_bb_indep k s j bs bb1 bb2
  rw [h] at hm hr
  rcases hx : readDims s bb2 j k bs with ⟨res, st2, rest2⟩
  rw [hx] at hm hr
  cases res with
  | none => simp at hm
  | some pr =>
    obtain ⟨c2, bbB⟩ := pr
    simp only [Option.map_some', Option.some.injEq] at hm
    simp only at hr
    refine ⟨bbB, ?_⟩
    simp only [Prod.mk.injEq] at hr
    simp only [Prod.mk.injEq, Option.some.injEq]
    exact ⟨⟨hm.symm, trivial⟩, hr.1.symm, hr.2.symm⟩

/-- Transport a successful `readCoordsLoop` to any other incidental-bbox
seed. -/
theorem readCoordsLoop_bb_transport (n : Nat) :
    ∀ (s : DecSt) (bs : List Nat) (bb1 bb2 : Option (List ℚ)) coords bbA s' bs',
      readCoordsLoop s bb1 n bs = (some (coords, bbA), s', bs') →
      ∃ bbB, readCoordsLoop s bb2 n bs = (some (coords, bbB), s', bs') := by
  induction n with
  | zero =>
    intro s bs bb1 bb2 coords bbA s' bs' h
    rw [readCoordsLoop] at h
    simp only [Prod.mk.injEq, Option.some.injEq] at h
    obtain ⟨⟨hc, -⟩, hs, hr⟩ := h
    refine ⟨bb2, ?_⟩
    rw [readCoordsLoop, ← hc, ← hs, ← hr]
  | succ n ih =>
    intro s bs bb1 bb2 coords bbA s' bs' h
    rw [readCoordsLoop] at h
    split at h
    · simp at h
    · next coord bbA1 s1 bs1 heq =>
      split at h
      · next coordsT bbT s2 bs2 heq2 =>
        simp only [Prod.mk.injEq, Option.some.injEq] at h
        obtain ⟨⟨hc, -⟩, hs, hr⟩ := h
        obtain ⟨bbB1, heqB⟩ := readDims_bb_transport s 0 s.ndims bs bb1 bb2 _ _ _ _ heq
        obtain ⟨bbB2, heqB2⟩ := ih s1 bs1 bbA1 bbB1 _ _ _ _ heq2
        refine ⟨bbB2, ?_⟩
        rw [readCoordsLoop, heqB]
        dsimp only
        rw [heqB2, ← hc, ← hs, ← hr]
      · simp at h

/-- Inversion of a one-coordinate `readCoordsLoop`. -/
theorem readCoordsLoop_one_inv (s : DecSt) (bb : Option (List ℚ)) (bs : List Nat)
    (coords : List (List ℚ)) (bbOut : Option (List ℚ)) (s' : DecSt) (bs' : List Nat)
    (h : readCoordsLoop s bb 1 bs = (some (coords, bbOut), s', bs')) :
    ∃ c, coords = [c] ∧ readDims s bb 0 s.ndims bs = (some (c, bbOut), s', bs') := by
  rw [readCoordsLoop] at h
  split at h
  · simp at h
  · next coord bb1 s1 bs1 heq =>
    rw [readCoordsLoop] at h
    simp only [Prod.mk.injEq, Option.some.injEq] at h
    obtain ⟨⟨hc, hb⟩, hs, hr⟩ := h
    refine ⟨coord, hc.symm, ?_⟩
    rw [heq, hb, hs, hr]

/-- Inversion of a headerless `decodePoint` (a Multi* member decode). -/
theorem decodePoint_none_inv (s : DecSt) (bs : List Nat) (p : Point)
    (s1 : DecSt) (rest : List Nat)
    (h : decodePoint s none bs = .ok (p, s1, rest)) :
    ∃ c bb, readCoords s 1 bs = (some ([c], bb), s1, rest) ∧ p = ⟨none, c⟩ := by
  rw [decodePoint] at h
  split at h
  · simp at h
  · next coords bb s2 bs2 heq =>
    dsimp only at h
    simp only [Except.ok.injEq, Prod.mk.injEq] at h
    obtain ⟨hp, hs, hr⟩ := h
    obtain ⟨c, hc⟩ := readCoords_one _ _ _ _ _ _ heq
    subst hc
    rw [hs, hr] at heq
    refine ⟨c, bb, heq, ?_⟩
    rw [← hp]
    simp

/-- The member loop of `decodeMultiPoint` *is* a coordinate block read with
the parent's context: headerless members, and the same coordinates, final
accumulator state and stream as `readCoords` of the parent's state. -/
theorem pointsLoop_readCoords (m : Nat) :
    ∀ s bs ps s1 rest, pointsLoop s m bs = .ok (ps, s1, rest) →
      (∀ p ∈ ps, p.hdr = none) ∧
      ∃ bb, readCoords s m bs = (some (ps.map Point.coord, bb), s1, rest) := by
  induction m with
  | zero =>
    intro s bs ps s1 rest h
    rw [pointsLoop] at h
    simp only [Except.ok.injEq, Prod.mk.injEq] at h
    obtain ⟨hp, hs, hr⟩ := h
    refine ⟨by rw [← hp]; simp, ?_⟩
    rw [← hp, ← hs, ← hr]
    exact ⟨_, rfl⟩
  | succ m ih =>
    intro s bs ps s1 rest h
    rw [pointsLoop] at h
    split at h
    · simp at h
    · next p sA bsA heqP =>
      split at h
      · simp at h
      · next psT s2 bs2 heqL =>
        simp only [Except.ok.injEq, Prod.mk.injEq] at h
        obtain ⟨hps, hs, hr⟩ := h
        obtain ⟨c, bbP, hrc, hp⟩ := decodePoint_none_inv _ _ _ _ _ heqP
        obtain ⟨hhdrs, bbT, hrcT⟩ := ih sA bsA psT s2 bs2 heqL
        constructor
        · intro q hq
          rw [← hps] at hq
          rcases List.mem_cons.mp hq with h1 | h2
          · rw [h1, hp]
          · exact hhdrs q h2
        · rw [readCoords] at hrc hrcT ⊢
          obtain ⟨c', hc', hD⟩ := readCoordsLoop_one_inv _ _ _ _ _ _ _ hrc
          have hcc : c' = c := by
            have h2 := congrArg (fun l => l.headD ([] : List ℚ)) hc'
            simpa using h2.symm
          subst hcc
          obtain ⟨bbB, hLB⟩ := readCoordsLoop_bb_transport m sA bsA _ bbP _ _ _ _ hrcT
          refine ⟨bbB, ?_⟩
          rw [readCoordsLoop, hD]
          dsimp only
          rw [hLB, ← hps, ← hs, ← hr, hp]
          simp

/-- Inversion of a headerless `decodeLineString` (a member decode): nil
header, per-dimension coordinate lengths, dimensionality untouched. -/
theorem decodeLineString_none_inv (s : DecSt) (bs : List Nat) (l : LineString)
    (s1 : DecSt) (rest : List Nat)
    (h : decodeLineString s none bs = .ok (l, s1, rest)) :
    l.hdr = none ∧ (∀ c ∈ l.coords, c.length = s.ndims) ∧ s1.ndims = s.ndims := by
  rw [decodeLineString] at h
  split at h
  · simp at h
  · next n bs1 hr =>
    split at h
    · simp at h
    · next coords bb s2 bs2 heq =>
      dsimp only at h
      simp only [Except.ok.injEq, Prod.mk.injEq] at h
      obtain ⟨hl, hs, hrr⟩ := h
      have hst := readCoords_state s n bs1
      rw [heq] at hst
      simp only at hst
      rw [readCoords] at heq
      have hlen := readCoordsLoop_len n s _ bs1 _ _ _ _ heq
      refine ⟨by rw [← hl], ?_, ?_⟩
      · intro cc hcc
        rw [← hl] at hcc
        exact hlen cc hcc
      · rw [← hs, hst]

/-- The member loop of `decodeMultiLineString`: members are headerless and
inherit the parent's dimensionality. -/
theorem lineStringsLoop_members (m : Nat) :
    ∀ s bs ls s1 rest, lineStringsLoop s m bs = .ok (ls, s1, rest) →
      (∀ l ∈ ls, l.hdr = none ∧ ∀ c ∈ l.coords, c.length = s.ndims) ∧
        s1.ndims = s.ndims := by
  induction m with
  | zero =>
    intro s bs ls s1 rest h
    rw [lineStringsLoop] at h
    simp only [Except.ok.injEq, Prod.mk.injEq] at h
    obtain ⟨hl, hs, -⟩ := h
    exact ⟨by rw [← hl]; simp, by rw [← hs]⟩
  | succ m ih =>
    intro s bs ls s1 rest h
    rw [lineStringsLoop] at h
    split at h
    · simp at h
    · next l sA bsA heqL =>
      split at h
      · simp at h
      · next lsT s2 bs2 heqT =>
        simp only [Except.ok.injEq, Prod.mk.injEq] at h
        obtain ⟨hl, hs, -⟩ := h
        obtain ⟨hhd, hdim, hnd⟩ := decodeLineString_none_inv _ _ _ _ _ heqL
        obtain ⟨hmem, hnd2⟩ := ih sA bsA lsT s2 bs2 heqT
        constructor
        · intro q hq
          rw [← hl] at hq
          rcases List.mem_cons.mp hq with h1 | h2
          · subst h1
            exact ⟨hhd, hdim⟩
          · obtain ⟨ha, hb⟩ := hmem q h2
            refine ⟨ha, ?_⟩
            rw [← hnd]
            exact hb
        · rw [← hs, hnd2, hnd]

/-- The ring loop of `decodePolygon`: ring coordinates have the context's
dimensionality (a swallowed read failure leaves an empty ring), and the
dimensionality is untouched. -/
theorem polyRings_rings (n : Nat) :
    ∀ s bs rings s1 rest, polyRings s n bs = .ok (rings, s1, rest) →
      (∀ ring ∈ rings, ∀ c ∈ ring, c.length = s.ndims) ∧ s1.ndims = s.ndims := by
  induction n with
  | zero =>
    intro s bs rings s1 rest h
    rw [polyRings] at h
    simp only [Except.ok.injEq, Prod.mk.injEq] at h
    obtain ⟨hl, hs, -⟩ := h
    exact ⟨by rw [← hl]; simp, by rw [← hs]⟩
  | succ n ih =>
    intro s bs rings s1 rest h
    rw [polyRings] at h
    split at h
    · simp at h
    · next ringSize bs1 hr =>
      rcases hx : readCoords s ringSize bs1 with ⟨res, sA, bsA⟩
      rw [hx] at h
      dsimp only at h
      split at h
      · simp at h
      · next rs s2 bs2 heqT =>
        simp only [Except.ok.injEq, Prod.mk.injEq] at h
        obtain ⟨hl, hs, -⟩ := h
        have hst := readCoords_state s ringSize bs1
        rw [hx] at hst
        simp only at hst
        have hnd : sA.ndims = s.ndims := by rw [hst]
        obtain ⟨hmem, hnd2⟩ := ih sA bsA rs s2 bs2 heqT
        constructor
        · intro ring hring
          rw [← hl] at hring
          rcases List.mem_cons.mp hring with h1 | h2
          · subst h1
            cases res with
            | none => simp
            | some pr =>
              obtain ⟨cs, bb⟩ := pr
              rw [readCoords] at hx
              have hlen := readCoordsLoop_len ringSize s _ bs1 _ _ _ _ hx
              simpa using hlen
          · intro cc hcc
            rw [← hnd]
            exact hmem ring h2 cc hcc
        · rw [← hs, hnd2, hnd]

/-- Inversion of a headerless `decodePolygon` (a member decode). -/
theorem decodePolygon_none_inv (s : DecSt) (bs : List Nat) (pg : Polygon)
    (s1 : DecSt) (rest : List Nat)
    (h : decodePolygon s none bs = .ok (pg, s1, rest)) :
    pg.hdr = none ∧ (∀ ring ∈ pg.rings, ∀ c ∈ ring, c.length = s.ndims) ∧
      s1.ndims = s.ndims := by
  rw [decodePolygon] at h
  split at h
  · simp at h
  · next n bs1 hr =>
    split at h
    · simp at h
    · next rings s2 bs2 heq =>
      simp only [Except.ok.injEq, Prod.mk.injEq] at h
      obtain ⟨hp, hs, -⟩ := h
      obtain ⟨hmem, hnd⟩ := polyRings_rings n s bs1 rings s2 bs2 heq
      refine ⟨by rw [← hp], ?_, by rw [← hs, hnd]⟩
      intro ring hring
      rw [← hp] at hring
      exact hmem ring hring

/-- The member loop of `decodeMultiPolygon`. -/
theorem polygonsLoop_members (m : Nat) :
    ∀ s bs ps s1 rest, polygonsLoop s m bs = .ok (ps, s1, rest) →
      (∀ pg ∈ ps, pg.hdr = none ∧ ∀ ring ∈ pg.rings, ∀ c ∈ ring, c.length = s.ndims) ∧
        s1.ndims = s.ndims := by
  induction m with
  | zero =>
    intro s bs ps s1 rest h
    rw [polygonsLoop] at h
    simp only [Except.ok.injEq, Prod.mk.injEq] at h
    obtain ⟨hl, hs, -⟩ := h
    exact ⟨by rw [← hl]; simp, by rw [← hs]⟩
  | succ m ih =>
    intro s bs ps s1 rest h
    rw [polygonsLoop] at h
    split at h
    · simp at h
    · next pg sA bsA heqP =>
      split at h
      · simp at h
      · next psT s2 bs2 heqT =>
        simp only [Except.ok.injEq, Prod.mk.injEq] at h
        obtain ⟨hl, hs, -⟩ := h
        obtain ⟨hhd, hdim, hnd⟩ := decodePolygon_none_inv _ _ _ _ _ heqP
        obtain ⟨hmem, hnd2⟩ := ih sA bsA psT s2 bs2 heqT
        constructor
        · intro q hq
          rw [← hl] at hq
          rcases List.mem_cons.mp hq with h1 | h2
          · subst h1
            exact ⟨hhd, hdim⟩
          · obtain ⟨ha, hb⟩ := hmem q h2
            refine ⟨ha, ?_⟩
            intro ring hring cc hcc
            rw [← hnd]
            exact hb ring hring cc hcc
        · rw [← hs, hnd2, hnd]

/-- `readMHdr` on a conformally encoded member count with the idlist flag
clear. -/
theorem readMHdr_encode (s : DecSt) (hs : s.idlist = false) (m : Nat) (hm : m < 2 ^ 64)
    (bs : List Nat) : readMHdr s (specVarintEncode m ++ bs) = .ok ((m, []), bs) := by
  have h := readVarInt64Aux_encode m m 0 0 bs (Nat.le_refl m) (by norm_num)
    (by simpa using hm)
  have h2 : readVarInt64 (specVarintEncode m ++ bs) = some (m, bs) := by
    simpa [readVarInt64, specVarintEncode] using h
  rw [readMHdr, h2]
  dsimp only
  rw [hs]
  simp

/-- With the idlist flag clear, `readMHdr` returns the nil id list. -/
theorem readMHdr_ids (s : DecSt) (hs : s.idlist = false) (bs : List Nat)
    (n : Nat) (ids : List Int) (bs1 : List Nat)
    (h : readMHdr s bs = .ok ((n, ids), bs1)) : ids = [] := by
  rw [readMHdr] at h
  split at h
  · simp at h
  · next n2 bs2 hr =>
    rw [hs] at h
    simp only [Bool.false_eq_true, if_false, Except.ok.injEq, Prod.mk.injEq] at h
    obtain ⟨⟨-, hi⟩, -⟩ := h
    rw [← hi]

/-!
## C8
-/

/-- C8: the three homogeneous multi-geometry decoders decode each member with
the parent's context and no member headers.  For MultiPoint the member loop is
*literally* a coordinate-block read continuing the parent's running reference
accumulator with the parent's dimensionality and scale factors: the members'
coordinates, the final accumulator state and the remaining stream coincide
with `readCoords` of the parent's state.  For MultiLineString and
MultiPolygon every member likewise carries a nil header and every member
coordinate has the parent's dimensionality (their deltas are read through the
same threaded state). -/
theorem C8_multi_members_inherit_parent_context :
    (∀ (s : DecSt) (hh : Option Hdr) (bs : List Nat) (m : Nat) mp s1 rest,
        s.idlist = false → m < 2 ^ 63 →
        decodeMultiPoint s hh (specVarintEncode m ++ bs) = .ok (mp, s1, rest) →
        mp.ids = [] ∧ (∀ p ∈ mp.points, p.hdr = none ∧ p.coord.length = s.ndims) ∧
          ∃ bb, readCoords s m bs = (some (mp.points.map Point.coord, bb), s1, rest)) ∧
    (∀ (s : DecSt) (hh : Option Hdr) (bs : List Nat) ml s1 rest,
        s.idlist = false →
        decodeMultiLineString s hh bs = .ok (ml, s1, rest) →
        ml.ids = [] ∧ ∀ l ∈ ml.lineStrings, l.hdr = none ∧
          ∀ c ∈ l.coords, c.length = s.ndims) ∧
    (∀ (s : DecSt) (hh : Option Hdr) (bs : List Nat) mpg s1 rest,
        s.idlist = false →
        decodeMultiPolygon s hh bs = .ok (mpg, s1, rest) →
        mpg.ids = [] ∧ ∀ pg ∈ mpg.polygons, pg.hdr = none ∧
          ∀ ring ∈ pg.rings, ∀ c ∈ ring, c.length = s.ndims) := by
  refine ⟨?_, ?_, ?_⟩
  · intro s hh bs m mp s1 rest hidl hm h
    rw [decodeMultiPoint] at h
    split at h
    · simp at h
    · next m2 ids bs1 hmh =>
      rw [readMHdr_encode s hidl m (by omega) bs] at hmh
      simp only [Except.ok.injEq, Prod.mk.injEq] at hmh
      obtain ⟨⟨hm2, hids⟩, hbs1⟩ := hmh
      subst hm2
      subst hbs1
      split at h
      · simp at h
      · next ps s2 bs2 heqL =>
        simp only [Except.ok.injEq, Prod.mk.injEq] at h
        obtain ⟨hmp, hs2, hbs2⟩ := h
        subst hs2
        subst hbs2
        obtain ⟨hhdrs, bb, hrc⟩ := pointsLoop_readCoords m s bs ps _ _ heqL
        have hlen : ∀ c ∈ ps.map Point.coord, c.length = s.ndims := by
          rw [readCoords] at hrc
          exact readCoordsLoop_len m s _ bs _ _ _ _ hrc
        refine ⟨by rw [← hmp, ← hids], ?_, ?_⟩
        · intro p hp
          rw [← hmp] at hp
          simp only at hp
          exact ⟨hhdrs p hp, hlen p.coord (List.mem_map_of_mem Point.coord hp)⟩
        · refine ⟨bb, ?_⟩
          rw [← hmp]
          exact hrc
  · intro s hh bs ml s1 rest hidl h
    rw [decodeMultiLineString] at h
    split at h
    · simp at h
    · next n ids bs1 hmh =>
      have hids := readMHdr_ids s hidl _ _ _ _ hmh
      split at h
      · simp at h
      · next ls s2 bs2 heqL =>
        simp only [Except.ok.injEq, Prod.mk.injEq] at h
        obtain ⟨hml, -, -⟩ := h
        obtain ⟨hmem, -⟩ := lineStringsLoop_members n s bs1 ls s2 bs2 heqL
        rw [← hml]
        exact ⟨hids, hmem⟩
  · intro s hh bs mpg s1 rest hidl h
    rw [decodeMultiPolygon] at h
    split at h
    · simp at h
    · next n ids bs1 hmh =>
      have hids := readMHdr_ids s hidl _ _ _ _ hmh
      split at h
      · simp at h
      · next ps s2 bs2 heqL =>
        simp only [Except.ok.injEq, Prod.mk.injEq] at h
        obtain ⟨hml, -, -⟩ := h
        obtain ⟨hmem, -⟩ := polygonsLoop_members n s bs1 ps s2 bs2 heqL
        rw [← hml]
        exact ⟨hids, hmem⟩

theorem C8_witness :
    (⟨none, [], [⟨none, [1, 1]⟩]⟩ : MultiPoint).ids = [] ∧
      (∀ p ∈ (⟨none, [], [⟨none, [1, 1]⟩]⟩ : MultiPoint).points,
        p.hdr = none ∧ p.coord.length =
          (⟨[0, 0, 0, 0], [1, 1, 0, 0], 2, false, false, false, false, 0⟩ : DecSt).ndims) ∧
      ∃ bb, readCoords ⟨[0, 0, 0, 0], [1, 1, 0, 0], 2, false, false, false, false, 0⟩ 1 [2, 2] =
        (some ((⟨none, [], [⟨none, [1, 1]⟩]⟩ : MultiPoint).points.map Point.coord, bb),
          ⟨[1, 1, 0, 0], [1, 1, 0, 0], 2, false, false, false, false, 0⟩, []) :=
  C8_multi_members_inherit_parent_context.1
    ⟨[0, 0, 0, 0], [1, 1, 0, 0], 2, false, false, false, false, 0⟩ none [2, 2] 1
    ⟨none, [], [⟨none, [1, 1]⟩]⟩
    ⟨[1, 1, 0, 0], [1, 1, 0, 0], 2, false, false, false, false, 0⟩ []
    rfl (by norm_num) (by with_unfolding_all rfl)

/-!
## C9: the empty flag is dead state
-/

/-- Two decoder states that agree on everything except (possibly) the
`empty` flag. -/
def relSt (s1 s2 : DecSt) : Prop :=
  s1.refpoint = s2.refpoint ∧ s1.factors = s2.factors ∧ s1.ndims = s2.ndims ∧
    s1.bbox = s2.bbox ∧ s1.size = s2.size ∧ s1.idlist = s2.idlist ∧
    s1.length = s2.length

/-- Results of a body decoder that agree except for the `empty` flag of the
threaded state. -/
def relOut {α : Type} : Except Err (α × DecSt × List Nat) →
    Except Err (α × DecSt × List Nat) → Prop
  | .error e1, .error e2 => e1 = e2
  | .ok (a1, st1, r1), .ok (a2, st2, r2) => a1 = a2 ∧ relSt st1 st2 ∧ r1 = r2
  | _, _ => False

/-- `readDims` ignores the `empty` flag. -/
theorem readDims_rel (k : Nat) :
    ∀ (s1 s2 : DecSt) (bb : Option (List ℚ)) (j : Nat) (bs : List Nat)
      res1 st1 r1 res2 st2 r2,
      readDims s1 bb j k bs = (res1, st1, r1) →
      readDims s2 bb j k bs = (res2, st2, r2) →
      relSt s1 s2 →
      res1 = res2 ∧ relSt st1 st2 ∧ r1 = r2 := by
  induction k with
  | zero =>
    intro s1 s2 bb j bs res1 st1 r1 res2 st2 r2 h1 h2 hrel
    rw [readDims] at h1 h2
    simp only [Prod.mk.injEq] at h1 h2
    obtain ⟨ha1, hb1, hc1⟩ := h1
    obtain ⟨ha2, hb2, hc2⟩ := h2
    subst ha1 hb1 hc1 ha2 hb2 hc2
    exact ⟨rfl, hrel, rfl⟩
  | succ k ih =>
    intro s1 s2 bb j bs res1 st1 r1 res2 st2 r2 h1 h2 hrel
    obtain ⟨e1, e2, e3, e4, e5, e6, e7⟩ := hrel
    rw [readDims] at h1 h2
    cases hr : readVarSInt64 bs with
    | none =>
      rw [hr] at h1 h2
      simp only [Prod.mk.injEq] at h1 h2
      obtain ⟨ha1, hb1, hc1⟩ := h1
      obtain ⟨ha2, hb2, hc2⟩ := h2
      subst ha1 hb1 hc1 ha2 hb2 hc2
      exact ⟨rfl, ⟨e1, e2, e3, e4, e5, e6, e7⟩, rfl⟩
    | some p =>
      obtain ⟨val, bs1⟩ := p
      rw [hr] at h1 h2
      simp only [e1, e2, e3] at h1
      simp only [] at h2
      split at h1
      · next coordT bbT sA rA heqA =>
        split at h2
        · next coordT2 bbT2 sB rB heqB =>
          have h := ih _ _ _ (j+1) bs1 _ _ _ _ _ _ heqA heqB
            ⟨by simp [e1], by simp [e2], by simp [e3], by simp [e4], by simp [e5],
              by simp [e6], by simp [e7]⟩
          simp only [Prod.mk.injEq] at h1 h2
          obtain ⟨ha1, hb1, hc1⟩ := h1
          obtain ⟨ha2, hb2, hc2⟩ := h2
          subst ha1 hb1 hc1 ha2 hb2 hc2
          obtain ⟨hres, hst, hr2⟩ := h
          simp only [Option.some.injEq, Prod.mk.injEq] at hres
          exact ⟨by rw [hres.1, hres.2], hst, hr2⟩
        · next sB rB heqB =>
          have h := ih _ _ _ (j+1) bs1 _ _ _ _ _ _ heqA heqB
            ⟨by simp [e1], by simp [e2], by simp [e3], by simp [e4], by simp [e5],
              by simp [e6], by simp [e7]⟩
          simp at h
      · next sA rA heqA =>
        split at h2
        · next coordT2 bbT2 sB rB heqB =>
          have h := ih _ _ _ (j+1) bs1 _ _ _ _ _ _ heqA heqB
            ⟨by simp [e1], by simp [e2], by simp [e3], by simp [e4], by simp [e5],
              by simp [e6], by simp [e7]⟩
          simp at h
        · next sB rB heqB =>
          have h := ih _ _ _ (j+1) bs1 _ _ _ _ _ _ heqA heqB
            ⟨by simp [e1], by simp [e2], by simp [e3], by simp [e4], by simp [e5],
              by simp [e6], by simp [e7]⟩
          simp only [Prod.mk.injEq] at h1 h2
          obtain ⟨ha1, hb1, hc1⟩ := h1
          obtain ⟨ha2, hb2, hc2⟩ := h2
          subst ha1 hb1 hc1 ha2 hb2 hc2
          exact ⟨rfl, h.2.1, h.2.2⟩

/-- `readCoordsLoop` ignores the `empty` flag. -/
theorem readCoordsLoop_rel (n : Nat) :
    ∀ (s1 s2 : DecSt) (bb : Option (List ℚ)) (bs : List Nat) res1 st1 r1 res2 st2 r2,
      readCoordsLoop s1 bb n bs = (res1, st1, r1) →
      readCoordsLoop s2 bb n bs = (res2, st2, r2) →
      relSt s1 s2 →
      res1 = res2 ∧ relSt st1 st2 ∧ r1 = r2 := by
  induction n with
  | zero =>
    intro s1 s2 bb bs res1 st1 r1 res2 st2 r2 h1 h2 hrel
    rw [readCoordsLoop] at h1 h2
    simp only [Prod.mk.injEq] at h1 h2
    obtain ⟨ha1, hb1, hc1⟩ := h1
    obtain ⟨ha2, hb2, hc2⟩ := h2
    subst ha1 hb1 hc1 ha2 hb2 hc2
    exact ⟨rfl, hrel, rfl⟩
  | succ n ih =>
    intro s1 s2 bb bs res1 st1 r1 res2 st2 r2 h1 h2 hrel
    have e3 := hrel.2.2.1
    rw [readCoordsLoop] at h1 h2
    rw [e3] at h1
    split at h1
    · next sA rA heqA =>
      split at h2
      · next sB rB heqB =>
        have hd := readDims_rel s2.ndims s1 s2 bb 0 bs _ _ _ _ _ _ heqA heqB hrel
        simp only [Prod.mk.injEq] at h1 h2
        obtain ⟨ha1, hb1, hc1⟩ := h1
        obtain ⟨ha2, hb2, hc2⟩ := h2
        subst ha1 hb1 hc1 ha2 hb2 hc2
        exact ⟨rfl, hd.2.1, hd.2.2⟩
      · next coordB bbB sB rB heqB =>
        have hd := readDims_rel s2.ndims s1 s2 bb 0 bs _ _ _ _ _ _ heqA heqB hrel
        simp at hd
    · next coordA bbA sA rA heqA =>
      split at h2
      · next sB rB heqB =>
        have hd := readDims_rel s2.ndims s1 s2 bb 0 bs _ _ _ _ _ _ heqA heqB hrel
        simp at hd
      · next coordB bbB sB rB heqB =>
        have hd := readDims_rel s2.ndims s1 s2 bb 0 bs _ _ _ _ _ _ heqA heqB hrel
        obtain ⟨hres, hst, hrr⟩ := hd
        simp only [Option.some.injEq, Prod.mk.injEq] at hres
        obtain ⟨hcoord, hbb⟩ := hres
        rw [← hbb, ← hrr] at h2
        split at h1
        · next coordsA bbTA sA2 rA2 heqA2 =>
          split at h2
          · next coordsB bbTB sB2 rB2 heqB2 =>
            have hl := ih sA sB bbA rA _ _ _ _ _ _ heqA2 heqB2 hst
            simp only [Prod.mk.injEq] at h1 h2
            obtain ⟨ha1, hb1, hc1⟩ := h1
            obtain ⟨ha2, hb2, hc2⟩ := h2
            subst ha1 hb1 hc1 ha2 hb2 hc2
            obtain ⟨hres2, hst2, hr2⟩ := hl
            simp only [Option.some.injEq, Prod.mk.injEq] at hres2
            exact ⟨by rw [hcoord, hres2.1, hres2.2], hst2, hr2⟩
          · next sB2 rB2 heqB2 =>
            have hl := ih sA sB bbA rA _ _ _ _ _ _ heqA2 heqB2 hst
            simp at hl
        · next sA2 rA2 heqA2 =>
          split at h2
          · next coordsB bbTB sB2 rB2 heqB2 =>
            have hl := ih sA sB bbA rA _ _ _ _ _ _ heqA2 heqB2 hst
            simp at hl
          · next sB2 rB2 heqB2 =>
            have hl := ih sA sB bbA rA _ _ _ _ _ _ heqA2 heqB2 hst
            simp only [Prod.mk.injEq] at h1 h2
            obtain ⟨ha1, hb1, hc1⟩ := h1
            obtain ⟨ha2, hb2, hc2⟩ := h2
            subst ha1 hb1 hc1 ha2 hb2 hc2
            exact ⟨rfl, hl.2.1, hl.2.2⟩

/-- `readCoords` ignores the `empty` flag. -/
theorem readCoords_rel (n : Nat) (s1 s2 : DecSt) (bs : List Nat)
    (res1 : Option (List (List ℚ) × Option (List ℚ))) (st1 : DecSt) (r1 : List Nat)
    (res2 : Option (List (List ℚ) × Option (List ℚ))) (st2 : DecSt) (r2 : List Nat)
    (h1 : readCoords s1 n bs = (res1, st1, r1)) (h2 : readCoords s2 n bs = (res2, st2, r2))
    (hrel : relSt s1 s2) : res1 = res2 ∧ relSt st1 st2 ∧ r1 = r2 := by
  rw [readCoords] at h1 h2
  rw [hrel.2.2.2.1, hrel.2.2.1] at h1
  exact readCoordsLoop_rel n s1 s2 _ bs _ _ _ _ _ _ h1 h2 hrel

/-- Related decoder outcomes give equal results once the state is dropped,
which is exactly what the dispatch in `Decode` does. -/
theorem relOut_map_eq {α β : Type} (g : α → β) (r1 r2 : Except Err (α × DecSt × List Nat))
    (h : relOut r1 r2) :
    Except.map (fun x => (g x.1, x.2.2)) r1 = Except.map (fun x => (g x.1, x.2.2)) r2 := by
  cases r1 with
  | error e1 =>
    cases r2 with
    | error e2 =>
      simp only [relOut] at h
      rw [h]
    | ok y =>
      obtain ⟨a2, st2, r2'⟩ := y
      simp only [relOut] at h
  | ok y =>
    obtain ⟨a1, st1, r1'⟩ := y
    cases r2 with
    | error e2 =>
      simp only [relOut] at h
    | ok y2 =>
      obtain ⟨a2, st2, r2'⟩ := y2
      simp only [relOut] at h
      obtain ⟨ha, -, hr⟩ := h
      simp only [Except.map]
      rw [ha, hr]

/-- `decodePoint` ignores the `empty` flag. -/
theorem decodePoint_rel (s1 s2 : DecSt) (hh : Option Hdr) (bs : List Nat)
    (hrel : relSt s1 s2) :
    relOut (decodePoint s1 hh bs) (decodePoint s2 hh bs) := by
  rw [decodePoint, decodePoint]
  rcases hx1 : readCoords s1 1 bs with ⟨res1, st1, r1⟩
  rcases hx2 : readCoords s2 1 bs with ⟨res2, st2, r2⟩
  obtain ⟨hres, hst, hrr⟩ := readCoords_rel 1 s1 s2 bs _ _ _ _ _ _ hx1 hx2 hrel
  subst hres
  subst hrr
  cases res1 with
  | none => exact rfl
  | some pr =>
    obtain ⟨coords, bb⟩ := pr
    cases hh with
    | some hh2 =>
      cases bb with
      | none => exact ⟨rfl, hst, rfl⟩
      | some b => exact ⟨rfl, hst, rfl⟩
    | none => exact ⟨rfl, hst, rfl⟩

/-- `decodeLineString` ignores the `empty` flag. -/
theorem decodeLineString_rel (s1 s2 : DecSt) (hh : Option Hdr) (bs : List Nat)
    (hrel : relSt s1 s2) :
    relOut (decodeLineString s1 hh bs) (decodeLineString s2 hh bs) := by
  rw [decodeLineString, decodeLineString]
  cases hn : readVarInt64 bs with
  | none => exact rfl
  | some p =>
    obtain ⟨n, bs1⟩ := p
    dsimp only
    rcases hx1 : readCoords s1 n bs1 with ⟨res1, st1, r1⟩
    rcases hx2 : readCoords s2 n bs1 with ⟨res2, st2, r2⟩
    obtain ⟨hres, hst, hrr⟩ := readCoords_rel n s1 s2 bs1 _ _ _ _ _ _ hx1 hx2 hrel
    subst hres
    subst hrr
    cases res1 with
    | none => exact rfl
    | some pr =>
      obtain ⟨coords, bb⟩ := pr
      cases hh with
      | some hh2 =>
        cases bb with
        | none => exact ⟨rfl, hst, rfl⟩
        | some b => exact ⟨rfl, hst, rfl⟩
      | none => exact ⟨rfl, hst, rfl⟩

/-- The polygon ring loop ignores the `empty` flag. -/
theorem polyRings_rel (n : Nat) :
    ∀ s1 s2 bs, relSt s1 s2 → relOut (polyRings s1 n bs) (polyRings s2 n bs) := by
  induction n with
  | zero =>
    intro s1 s2 bs hrel
    exact ⟨rfl, hrel, rfl⟩
  | succ n ih =>
    intro s1 s2 bs hrel
    rw [polyRings, polyRings]
    cases hr : readVarInt64 bs with
    | none => exact rfl
    | some p =>
      obtain ⟨ringSize, bs1⟩ := p
      dsimp only
      rcases hx1 : readCoords s1 ringSize bs1 with ⟨res1, st1, r1⟩
      rcases hx2 : readCoords s2 ringSize bs1 with ⟨res2, st2, r2⟩
      obtain ⟨hres, hst, hrr⟩ := readCoords_rel ringSize s1 s2 bs1 _ _ _ _ _ _ hx1 hx2 hrel
      subst hres
      subst hrr
      dsimp only
      have hrec := ih st1 st2 r1 hst
      cases hp1 : polyRings st1 n r1 with
      | error e1 =>
        cases hp2 : polyRings st2 n r1 with
        | error e2 =>
          rw [hp1, hp2] at hrec
          exact hrec
        | ok y2 =>
          obtain ⟨rs2, st2b, r2b⟩ := y2
          rw [hp1, hp2] at hrec
          exact hrec.elim
      | ok y1 =>
        obtain ⟨rs1, st1b, r1b⟩ := y1
        cases hp2 : polyRings st2 n r1 with
        | error e2 =>
          rw [hp1, hp2] at hrec
          exact hrec.elim
        | ok y2 =>
          obtain ⟨rs2, st2b, r2b⟩ := y2
          rw [hp1, hp2] at hrec
          obtain ⟨hrs, hstb, hrb⟩ := hrec
          exact ⟨by rw [hrs], hstb, hrb⟩

/-- `decodePolygon` ignores the `empty` flag. -/
theorem decodePolygon_rel (s1 s2 : DecSt) (hh : Option Hdr) (bs : List Nat)
    (hrel : relSt s1 s2) :
    relOut (decodePolygon s1 hh bs) (decodePolygon s2 hh bs) := by
  rw [decodePolygon, decodePolygon]
  cases hn : readVarInt64 bs with
  | none => exact rfl
  | some p =>
    obtain ⟨n, bs1⟩ := p
    dsimp only
    have hrec := polyRings_rel n s1 s2 bs1 hrel
    cases hp1 : polyRings s1 n bs1 with
    | error e1 =>
      cases hp2 : polyRings s2 n bs1 with
      | error e2 =>
        rw [hp1, hp2] at hrec
        exact hrec
      | ok y2 =>
        obtain ⟨rs2, st2, r2⟩ := y2
        rw [hp1, hp2] at hrec
        exact hrec.elim
    | ok y1 =>
      obtain ⟨rs1, st1, r1⟩ := y1
      cases hp2 : polyRings s2 n bs1 with
      | error e2 =>
        rw [hp1, hp2] at hrec
        exact hrec.elim
      | ok y2 =>
        obtain ⟨rs2, st2, r2⟩ := y2
        rw [hp1, hp2] at hrec
        obtain ⟨hrs, hst, hrr⟩ := hrec
        subst hrs
        subst hrr
        cases hh with
        | some hh2 => exact ⟨rfl, hst, rfl⟩
        | none => exact ⟨rfl, hst, rfl⟩

/-- `readMHdr` reads only the idlist flag of the state: related states give
identical results. -/
theorem readMHdr_rel (s1 s2 : DecSt) (bs : List Nat) (hrel : relSt s1 s2) :
    readMHdr s1 bs = readMHdr s2 bs := by
  rw [readMHdr, readMHdr, hrel.2.2.2.2.2.1]

/-- The MultiPoint member loop ignores the `empty` flag. -/
theorem pointsLoop_rel (m : Nat) :
    ∀ s1 s2 bs, relSt s1 s2 → relOut (pointsLoop s1 m bs) (pointsLoop s2 m bs) := by
  induction m with
  | zero =>
    intro s1 s2 bs hrel
    exact ⟨rfl, hrel, rfl⟩
  | succ m ih =>
    intro s1 s2 bs hrel
    rw [pointsLoop, pointsLoop]
    have hp := decodePoint_rel s1 s2 none bs hrel
    cases hd1 : decodePoint s1 none bs with
    | error e1 =>
      cases hd2 : decodePoint s2 none bs with
      | error e2 =>
        rw [hd1, hd2] at hp
        exact hp
      | ok y2 =>
        obtain ⟨p2, st2, r2⟩ := y2
        rw [hd1, hd2] at hp
        exact hp.elim
    | ok y1 =>
      obtain ⟨p1, st1, r1⟩ := y1
      cases hd2 : decodePoint s2 none bs with
      | error e2 =>
        rw [hd1, hd2] at hp
        exact hp.elim
      | ok y2 =>
        obtain ⟨p2, st2, r2⟩ := y2
        rw [hd1, hd2] at hp
        obtain ⟨hpp, hst, hrr⟩ := hp
        subst hpp
        subst hrr
        dsimp only
        have hl := ih st1 st2 r1 hst
        cases hl1 : pointsLoop st1 m r1 with
        | error e1 =>
          cases hl2 : pointsLoop st2 m r1 with
          | error e2 =>
            rw [hl1, hl2] at hl
            exact hl
          | ok y2 =>
            obtain ⟨ps2, st2b, r2b⟩ := y2
            rw [hl1, hl2] at hl
            exact hl.elim
        | ok y1 =>
          obtain ⟨ps1, st1b, r1b⟩ := y1
          cases hl2 : pointsLoop st2 m r1 with
          | error e2 =>
            rw [hl1, hl2] at hl
            exact hl.elim
          | ok y2 =>
            obtain ⟨ps2, st2b, r2b⟩ := y2
            rw [hl1, hl2] at hl
            obtain ⟨hps, hstb, hrb⟩ := hl
            exact ⟨by rw [hps], hstb, hrb⟩

/-- The MultiLineString member loop ignores the `empty` flag. -/
theorem lineStringsLoop_rel (m : Nat) :
    ∀ s1 s2 bs, relSt s1 s2 → relOut (lineStringsLoop s1 m bs) (lineStringsLoop s2 m bs) := by
  induction m with
  | zero =>
    intro s1 s2 bs hrel
    exact ⟨rfl, hrel, rfl⟩
  | succ m ih =>
    intro s1 s2 bs hrel
    rw [lineStringsLoop, lineStringsLoop]
    have hp := decodeLineString_rel s1 s2 none bs hrel
    cases hd1 : decodeLineString s1 none bs with
    | error e1 =>
      cases hd2 : decodeLineString s2 none bs with
      | error e2 =>
        rw [hd1, hd2] at hp
        exact hp
      | ok y2 =>
        obtain ⟨p2, st2, r2⟩ := y2
        rw [hd1, hd2] at hp
        exact hp.elim
    | ok y1 =>
      obtain ⟨p1, st1, r1⟩ := y1
      cases hd2 : decodeLineString s2 none bs with
      | error e2 =>
        rw [hd1, hd2] at hp
        exact hp.elim
      | ok y2 =>
        obtain ⟨p2, st2, r2⟩ := y2
        rw [hd1, hd2] at hp
        obtain ⟨hpp, hst, hrr⟩ := hp
        subst hpp
        subst hrr
        dsimp only
        have hl := ih st1 st2 r1 hst
        cases hl1 : lineStringsLoop st1 m r1 with
        | error e1 =>
          cases hl2 : lineStringsLoop st2 m r1 with
          | error e2 =>
            rw [hl1, hl2] at hl
            exact hl
          | ok y2 =>
            obtain ⟨ps2, st2b, r2b⟩ := y2
            rw [hl1, hl2] at hl
            exact hl.elim
        | ok y1 =>
          obtain ⟨ps1, st1b, r1b⟩ := y1
          cases hl2 : lineStringsLoop st2 m r1 with
          | error e2 =>
            rw [hl1, hl2] at hl
            exact hl.elim
          | ok y2 =>
            obtain ⟨ps2, st2b, r2b⟩ := y2
            rw [hl1, hl2] at hl
            obtain ⟨hps, hstb, hrb⟩ := hl
            exact ⟨by rw [hps], hstb, hrb⟩

/-- The MultiPolygon member loop ignores the `empty` flag. -/
theorem polygonsLoop_rel (m : Nat) :
    ∀ s1 s2 bs, relSt s1 s2 → relOut (polygonsLoop s1 m bs) (polygonsLoop s2 m bs) := by
  induction m with
  | zero =>
    intro s1 s2 bs hrel
    exact ⟨rfl, hrel, rfl⟩
  | succ m ih =>
    intro s1 s2 bs hrel
    rw [polygonsLoop, polygonsLoop]
    have hp := decodePolygon_rel s1 s2 none bs hrel
    cases hd1 : decodePolygon s1 none bs with
    | error e1 =>
      cases hd2 : decodePolygon s2 none bs with
      | error e2 =>
        rw [hd1, hd2] at hp
        exact hp
      | ok y2 =>
        obtain ⟨p2, st2, r2⟩ := y2
        rw [hd1, hd2] at hp
        exact hp.elim
    | ok y1 =>
      obtain ⟨p1, st1, r1⟩ := y1
      cases hd2 : decodePolygon s2 none bs with
      | error e2 =>
        rw [hd1, hd2] at hp
        exact hp.elim
      | ok y2 =>
        obtain ⟨p2, st2, r2⟩ := y2
        rw [hd1, hd2] at hp
        obtain ⟨hpp, hst, hrr⟩ := hp
        subst hpp
        subst hrr
        dsimp only
        have hl := ih st1 st2 r1 hst
        cases hl1 : polygonsLoop st1 m r1 with
        | error e1 =>
          cases hl2 : polygonsLoop st2 m r1 with
          | error e2 =>
            rw [hl1, hl2] at hl
            exact hl
          | ok y2 =>
            obtain ⟨ps2, st2b, r2b⟩ := y2
            rw [hl1, hl2] at hl
            exact hl.elim
        | ok y1 =>
          obtain ⟨ps1, st1b, r1b⟩ := y1
          cases hl2 : polygonsLoop st2 m r1 with
          | error e2 =>
            rw [hl1, hl2] at hl
            exact hl.elim
          | ok y2 =>
            obtain ⟨ps2, st2b, r2b⟩ := y2
            rw [hl1, hl2] at hl
            obtain ⟨hps, hstb, hrb⟩ := hl
            exact ⟨by rw [hps], hstb, hrb⟩

/-- `decodeMultiPoint` ignores the `empty` flag. -/
theorem decodeMultiPoint_rel (s1 s2 : DecSt) (hh : Option Hdr) (bs : List Nat)
    (hrel : relSt s1 s2) :
    relOut (decodeMultiPoint s1 hh bs) (decodeMultiPoint s2 hh bs) := by
  rw [decodeMultiPoint, decodeMultiPoint, readMHdr_rel s1 s2 bs hrel]
  cases hm : readMHdr s2 bs with
  | error e => exact rfl
  | ok y =>
    obtain ⟨⟨mn, ids⟩, bs1⟩ := y
    dsimp only
    have hl := pointsLoop_rel mn s1 s2 bs1 hrel
    cases hl1 : pointsLoop s1 mn bs1 with
    | error e1 =>
      cases hl2 : pointsLoop s2 mn bs1 with
      | error e2 =>
        rw [hl1, hl2] at hl
        exact hl
      | ok y2 =>
        obtain ⟨ps2, st2, r2⟩ := y2
        rw [hl1, hl2] at hl
        exact hl.elim
    | ok y1 =>
      obtain ⟨ps1, st1, r1⟩ := y1
      cases hl2 : pointsLoop s2 mn bs1 with
      | error e2 =>
        rw [hl1, hl2] at hl
        exact hl.elim
      | ok y2 =>
        obtain ⟨ps2, st2, r2⟩ := y2
        rw [hl1, hl2] at hl
        obtain ⟨hps, hst, hrr⟩ := hl
        exact ⟨by rw [hps], hst, hrr⟩

/-- `decodeMultiLineString` ignores the `empty` flag. -/
theorem decodeMultiLineString_rel (s1 s2 : DecSt) (hh : Option Hdr) (bs : List Nat)
    (hrel : relSt s1 s2) :
    relOut (decodeMultiLineString s1 hh bs) (decodeMultiLineString s2 hh bs) := by
  rw [decodeMultiLineString, decodeMultiLineString, readMHdr_rel s1 s2 bs hrel]
  cases hm : readMHdr s2 bs with
  | error e => exact rfl
  | ok y =>
    obtain ⟨⟨mn, ids⟩, bs1⟩ := y
    dsimp only
    have hl := lineStringsLoop_rel mn s1 s2 bs1 hrel
    cases hl1 : lineStringsLoop s1 mn bs1 with
    | error e1 =>
      cases hl2 : lineStringsLoop s2 mn bs1 with
      | error e2 =>
        rw [hl1, hl2] at hl
        exact hl
      | ok y2 =>
        obtain ⟨ps2, st2, r2⟩ := y2
        rw [hl1, hl2] at hl
        exact hl.elim
    | ok y1 =>
      obtain ⟨ps1, st1, r1⟩ := y1
      cases hl2 : lineStringsLoop s2 mn bs1 with
      | error e2 =>
        rw [hl1, hl2] at hl
        exact hl.elim
      | ok y2 =>
        obtain ⟨ps2, st2, r2⟩ := y2
        rw [hl1, hl2] at hl
        obtain ⟨hps, hst, hrr⟩ := hl
        exact ⟨by rw [hps], hst, hrr⟩

/-- `decodeMultiPolygon` ignores the `empty` flag. -/
theorem decodeMultiPolygon_rel (s1 s2 : DecSt) (hh : Option Hdr) (bs : List Nat)
    (hrel : relSt s1 s2) :
    relOut (decodeMultiPolygon s1 hh bs) (decodeMultiPolygon s2 hh bs) := by
  rw [decodeMultiPolygon, decodeMultiPolygon, readMHdr_rel s1 s2 bs hrel]
  cases hm : readMHdr s2 bs with
  | error e => exact rfl
  | ok y =>
    obtain ⟨⟨mn, ids⟩, bs1⟩ := y
    dsimp only
    have hl := polygonsLoop_rel mn s1 s2 bs1 hrel
    cases hl1 : polygonsLoop s1 mn bs1 with
    | error e1 =>
      cases hl2 : polygonsLoop s2 mn bs1 with
      | error e2 =>
        rw [hl1, hl2] at hl
        exact hl
      | ok y2 =>
        obtain ⟨ps2, st2, r2⟩ := y2
        rw [hl1, hl2] at hl
        exact hl.elim
    | ok y1 =>
      obtain ⟨ps1, st1, r1⟩ := y1
      cases hl2 : polygonsLoop s2 mn bs1 with
      | error e2 =>
        rw [hl1, hl2] at hl
        exact hl.elim
      | ok y2 =>
        obtain ⟨ps2, st2, r2⟩ := y2
        rw [hl1, hl2] at hl
        obtain ⟨hps, hst, hrr⟩ := hl
        exact ⟨by rw [hps], hst, hrr⟩

/-- `decodeCollection` ignores the `empty` flag (members are decoded by the
state-free recursive decode). -/
theorem decodeCollection_rel (dec : List Nat → Except Err (Geometry × List Nat))
    (s1 s2 : DecSt) (hh : Option Hdr) (bs : List Nat) (hrel : relSt s1 s2) :
    relOut (decodeCollection dec s1 hh bs) (decodeCollection dec s2 hh bs) := by
  rw [decodeCollection, decodeCollection, readMHdr_rel s1 s2 bs hrel]
  cases hm : readMHdr s2 bs with
  | error e => exact rfl
  | ok y =>
    obtain ⟨⟨mn, ids⟩, bs1⟩ := y
    dsimp only
    cases hms : decodeMembers dec mn bs1 with
    | error e => exact rfl
    | ok y2 =>
      obtain ⟨gs, rest⟩ := y2
      exact ⟨rfl, hrel, rfl⟩

/-- Flipping bit 4 of a byte leaves every test of a disjoint bit unchanged. -/
theorem xor16_and (f k : Nat) (hk : 16 &&& k = 0) : (f ^^^ 16) &&& k = f &&& k := by
  rw [Nat.and_xor_distrib_right, hk, Nat.xor_zero]

/-- The initial decoder states for metadata bytes differing in bit 4 agree on
everything but the `empty` flag. -/
theorem initSt_rel (flag mflag : Nat) :
    relSt (initSt flag (mflag ^^^ 16)) (initSt flag mflag) := by
  refine ⟨rfl, rfl, rfl, ?_, ?_, ?_, rfl⟩
  · show decide ((mflag ^^^ 16) &&& 1 = 1) = decide (mflag &&& 1 = 1)
    rw [xor16_and mflag 1 (by decide)]
  · show decide ((mflag ^^^ 16) &&& 2 = 2) = decide (mflag &&& 2 = 2)
    rw [xor16_and mflag 2 (by decide)]
  · show decide ((mflag ^^^ 16) &&& 4 = 4) = decide (mflag &&& 4 = 4)
    rw [xor16_and mflag 4 (by decide)]

/-- `applyExtended` ignores the `empty` flag. -/
theorem applyExtended_rel (e : Nat) (s1 s2 : DecSt) (h : Hdr) (hrel : relSt s1 s2) :
    relSt (applyExtended e s1 h).1 (applyExtended e s2 h).1 ∧
      (applyExtended e s1 h).2 = (applyExtended e s2 h).2 := by
  obtain ⟨e1, e2, e3, e4, e5, e6, e7⟩ := hrel
  rw [applyExtended, applyExtended]
  split_ifs
  · exact ⟨⟨e1, by rw [e2], rfl, e4, e5, e6, e7⟩, rfl⟩
  · exact ⟨⟨e1, by rw [e2], rfl, e4, e5, e6, e7⟩, rfl⟩
  · exact ⟨⟨e1, by rw [e2], rfl, e4, e5, e6, e7⟩, rfl⟩
  · exact ⟨⟨e1, e2, e3, e4, e5, e6, e7⟩, rfl⟩

/-- Header-stage results that agree except for the `empty` flag of the
threaded state. -/
def relHOut : Except Err (DecSt × Hdr × List Nat) →
    Except Err (DecSt × Hdr × List Nat) → Prop
  | .error e1, .error e2 => e1 = e2
  | .ok (s1, h1, r1), .ok (s2, h2, r2) => relSt s1 s2 ∧ h1 = h2 ∧ r1 = r2
  | _, _ => False

/-- Size-stage results that agree except for the `empty` flag of the
threaded state. -/
def relSOut : Except Err (DecSt × List Nat) → Except Err (DecSt × List Nat) → Prop
  | .error e1, .error e2 => e1 = e2
  | .ok (s1, r1), .ok (s2, r2) => relSt s1 s2 ∧ r1 = r2
  | _, _ => False

/-- The extended-dimensions step only consults bit 3 of the metadata byte and
ignores the `empty` flag of the state. -/
theorem parseExtended_flip (m1 m2 : Nat) (s1 s2 : DecSt) (h : Hdr) (bs : List Nat)
    (hm : m1 &&& 8 = m2 &&& 8) (hrel : relSt s1 s2) :
    relHOut (parseExtended m1 s1 h bs) (parseExtended m2 s2 h bs) := by
  rw [parseExtended.eq_def, parseExtended.eq_def, hm]
  by_cases h8 : m2 &&& 8 = 8
  · rw [if_pos h8, if_pos h8]
    cases bs with
    | nil => exact rfl
    | cons e bs1 =>
      dsimp only
      have ha := applyExtended_rel e s1 s2 h hrel
      rcases hx1 : applyExtended e s1 h with ⟨s1h, h1h⟩
      rcases hx2 : applyExtended e s2 h with ⟨s2h, h2h⟩
      rw [hx1, hx2] at ha
      exact ⟨ha.1, ha.2, rfl⟩
  · rw [if_neg h8, if_neg h8]
    exact ⟨hrel, rfl, rfl⟩

/-- The declared-size step ignores the `empty` flag. -/
theorem parseSize_rel (s1 s2 : DecSt) (bs : List Nat) (hrel : relSt s1 s2) :
    relSOut (parseSize s1 bs) (parseSize s2 bs) := by
  rw [parseSize, parseSize, hrel.2.2.2.2.1]
  by_cases hsz : s2.size = true
  · rw [if_pos hsz, if_pos hsz]
    cases hv : readVarInt64 bs with
    | none => exact rfl
    | some p =>
      obtain ⟨len, bs1⟩ := p
      dsimp only
      exact ⟨⟨hrel.1, hrel.2.1, hrel.2.2.1, hrel.2.2.2.1, rfl,
        hrel.2.2.2.2.2.1, rfl⟩, rfl⟩
  · rw [if_neg hsz, if_neg hsz]
    exact ⟨hrel, rfl⟩

/-- The header-bbox step ignores the `empty` flag. -/
theorem parseBBox_rel (s1 s2 : DecSt) (h : Hdr) (bs : List Nat) (hrel : relSt s1 s2) :
    relHOut (parseBBox s1 h bs) (parseBBox s2 h bs) := by
  rw [parseBBox, parseBBox, hrel.2.2.2.1, hrel.2.2.1]
  by_cases hb : s2.bbox = true
  · rw [if_pos hb, if_pos hb]
    cases hv : readBBoxLoop s2.ndims bs with
    | none => exact rfl
    | some p =>
      obtain ⟨⟨mins, maxs⟩, bs1⟩ := p
      dsimp only
      exact ⟨hrel, rfl, rfl⟩
  · rw [if_neg hb, if_neg hb]
    exact ⟨hrel, rfl, rfl⟩

/-- Parsing the header on two streams differing only in bit 4 of the
metadata flags byte yields results agreeing up to the `empty` flag. -/
theorem parseHeader_flip (t f : Nat) (rest : List Nat) :
    relHOut (parseHeader (t :: (f ^^^ 16) :: rest)) (parseHeader (t :: f :: rest)) := by
  rw [parseHeader.eq_def, parseHeader.eq_def]
  dsimp only
  by_cases hg : t &&& 0x0F < 1 ∨ 7 < t &&& 0x0F
  · rw [if_pos hg, if_pos hg]
    exact rfl
  · rw [if_neg hg, if_neg hg]
    have hpe := parseExtended_flip (f ^^^ 16) f (initSt t (f ^^^ 16)) (initSt t f)
      (initHdr t) rest (xor16_and f 8 (by decide)) (initSt_rel t f)
    cases hx1 : parseExtended (f ^^^ 16) (initSt t (f ^^^ 16)) (initHdr t) rest with
    | error e1 =>
      cases hx2 : parseExtended f (initSt t f) (initHdr t) rest with
      | error e2 =>
        rw [hx1, hx2] at hpe
        dsimp only
        exact hpe
      | ok y =>
        rw [hx1, hx2] at hpe
        exact hpe.elim
    | ok y1 =>
      obtain ⟨s1, h1, bs3⟩ := y1
      cases hx2 : parseExtended f (initSt t f) (initHdr t) rest with
      | error e2 =>
        rw [hx1, hx2] at hpe
        exact hpe.elim
      | ok y2 =>
        obtain ⟨s2, h2, bs3h⟩ := y2
        rw [hx1, hx2] at hpe
        obtain ⟨hst, hh, hbs⟩ := hpe
        subst hh
        subst hbs
        dsimp only
        have hps := parseSize_rel s1 s2 bs3 hst
        cases hy1 : parseSize s1 bs3 with
        | error e1 =>
          cases hy2 : parseSize s2 bs3 with
          | error e2 =>
            rw [hy1, hy2] at hps
            exact hps
          | ok y =>
            rw [hy1, hy2] at hps
            exact hps.elim
        | ok y1 =>
          obtain ⟨s1h, bs4⟩ := y1
          cases hy2 : parseSize s2 bs3 with
          | error e2 =>
            rw [hy1, hy2] at hps
            exact hps.elim
          | ok y2 =>
            obtain ⟨s2h, bs4h⟩ := y2
            rw [hy1, hy2] at hps
            obtain ⟨hsth, hbsh⟩ := hps
            subst hbsh
            exact parseBBox_rel s1h s2h h1 bs4 hsth

/-- A decode step on two streams differing only in bit 4 of the metadata
flags byte returns identical results. -/
theorem decodeStep_flip (dec : List Nat → Except Err (Geometry × List Nat))
    (t f : Nat) (rest : List Nat) :
    decodeStep dec (t :: (f ^^^ 16) :: rest) = decodeStep dec (t :: f :: rest) := by
  rw [decodeStep, decodeStep]
  have hp := parseHeader_flip t f rest
  cases hx1 : parseHeader (t :: (f ^^^ 16) :: rest) with
  | error e1 =>
    cases hx2 : parseHeader (t :: f :: rest) with
    | error e2 =>
      rw [hx1, hx2] at hp
      dsimp only
      rw [hp]
    | ok y =>
      rw [hx1, hx2] at hp
      exact hp.elim
  | ok y1 =>
    obtain ⟨s1, h1, r1⟩ := y1
    cases hx2 : parseHeader (t :: f :: rest) with
    | error e2 =>
      rw [hx1, hx2] at hp
      exact hp.elim
    | ok y2 =>
      obtain ⟨s2, h2, r2⟩ := y2
      rw [hx1, hx2] at hp
      obtain ⟨hst, hh, hr⟩ := hp
      subst hh
      subst hr
      dsimp only
      by_cases hg1 : h1.gtype = 1
      · rw [if_pos hg1, if_pos hg1]
        exact relOut_map_eq _ _ _ (decodePoint_rel s1 s2 (some h1) r1 hst)
      rw [if_neg hg1, if_neg hg1]
      by_cases hg2 : h1.gtype = 2
      · rw [if_pos hg2, if_pos hg2]
        exact relOut_map_eq _ _ _ (decodeLineString_rel s1 s2 (some h1) r1 hst)
      rw [if_neg hg2, if_neg hg2]
      by_cases hg3 : h1.gtype = 3
      · rw [if_pos hg3, if_pos hg3]
        exact relOut_map_eq _ _ _ (decodePolygon_rel s1 s2 (some h1) r1 hst)
      rw [if_neg hg3, if_neg hg3]
      by_cases hg4 : h1.gtype = 4
      · rw [if_pos hg4, if_pos hg4]
        exact relOut_map_eq _ _ _ (decodeMultiPoint_rel s1 s2 (some h1) r1 hst)
      rw [if_neg hg4, if_neg hg4]
      by_cases hg5 : h1.gtype = 5
      · rw [if_pos hg5, if_pos hg5]
        exact relOut_map_eq _ _ _ (decodeMultiLineString_rel s1 s2 (some h1) r1 hst)
      rw [if_neg hg5, if_neg hg5]
      by_cases hg6 : h1.gtype = 6
      · rw [if_pos hg6, if_pos hg6]
        exact relOut_map_eq _ _ _ (decodeMultiPolygon_rel s1 s2 (some h1) r1 hst)
      rw [if_neg hg6, if_neg hg6]
      by_cases hg7 : h1.gtype = 7
      · rw [if_pos hg7, if_pos hg7]
        exact relOut_map_eq (fun g => g) _ _ (decodeCollection_rel dec s1 s2 (some h1) r1 hst)
      rw [if_neg hg7, if_neg hg7]

/-- **C9.** The empty-geometry flag (bit 4 of the metadata flags byte) is
parsed but never acted upon: for any two input streams identical except for
bit 4 of the metadata flags byte (the second byte), `Decode` reads the same
subsequent bytes and returns the same result — body decoding proceeds
unconditionally. -/
theorem C9_empty_flag_never_acted_upon (t f : Nat) (rest : List Nat) :
    Decode (t :: (f ^^^ 16) :: rest) = Decode (t :: f :: rest) := by
  show decodeStep (decodeFuel (rest.length + 2)) (t :: (f ^^^ 16) :: rest)
    = decodeStep (decodeFuel (rest.length + 2)) (t :: f :: rest)
  exact decodeStep_flip (decodeFuel (rest.length + 2)) t f rest

end Twkb
